import Mathlib

/-!
Verification of the core of the example-mapping repository
(source files cyber_catalog.py, cyber_mapping.py, nist_mapping.py,
nist_relationships.py): identifier canonicalizers, the two relationship
classifiers, the hierarchical catalog builder and the crosswalk
partitioning.

Python strings are modelled as `List Char`.  The Python text operations
used by the source (`str.strip`, `str.lower`, `in`, `str.split`,
`str.rstrip`, `str.startswith`, `str.isdigit`, `int`/`str` round trips)
are embedded below over the ASCII range the data uses.  `pd.isna` inputs
are modelled by `Option`: `none` stands for a missing (NaN) cell.
-/

namespace ExMap

/-- Python strings are lists of characters. -/
abbrev LC := List Char

/-! ## Character level: lowercasing, whitespace, digits -/

theorem char_toNat_ofNat_lt (n : Nat) (h : n < 55296) : (Char.ofNat n).toNat = n := by
  have hv : n.isValidChar := Or.inl h
  rw [Char.ofNat, dif_pos hv]
  exact BitVec.toNat_ofNatLt n _

theorem char_eq_iff_toNat (c d : Char) : c = d ↔ c.toNat = d.toNat := by
  constructor
  · intro h; rw [h]
  · intro h
    apply Char.eq_of_val_eq
    apply UInt32.eq_of_toBitVec_eq
    exact BitVec.eq_of_toNat_eq h

/-- ASCII lowercasing of one character; embeds `str.lower` on the
character range the repository data uses. -/
def toLowerChar (c : Char) : Char :=
  if 65 ≤ c.toNat ∧ c.toNat ≤ 90 then Char.ofNat (c.toNat + 32) else c

theorem toLowerChar_toNat (c : Char) :
    (toLowerChar c).toNat = if 65 ≤ c.toNat ∧ c.toNat ≤ 90 then c.toNat + 32 else c.toNat := by
  unfold toLowerChar
  split
  · exact char_toNat_ofNat_lt _ (by omega)
  · rfl

theorem toLowerChar_idem (c : Char) : toLowerChar (toLowerChar c) = toLowerChar c := by
  rw [char_eq_iff_toNat, toLowerChar_toNat (toLowerChar c), toLowerChar_toNat c]
  split_ifs <;> omega

/-- For a character that is neither an uppercase nor a lowercase ASCII
letter, `toLowerChar c` hits it exactly when `c` is it. -/
theorem toLowerChar_eq_special (c c0 : Char)
    (h1 : c0.toNat < 65 ∨ (90 < c0.toNat ∧ c0.toNat < 97) ∨ 122 < c0.toNat) :
    toLowerChar c = c0 ↔ c = c0 := by
  rw [char_eq_iff_toNat, char_eq_iff_toNat, toLowerChar_toNat]
  split <;> omega

/-- Python `str.strip` whitespace set (ASCII part). -/
def isWS (c : Char) : Bool :=
  c == ' ' || c == '\t' || c == '\n' || c == '\r' || c == '\x0b' || c == '\x0c'

theorem isWS_iff (c : Char) : isWS c = true ↔
    (c.toNat = 32 ∨ c.toNat = 9 ∨ c.toNat = 10 ∨ c.toNat = 13 ∨ c.toNat = 11 ∨ c.toNat = 12) := by
  simp only [isWS, Bool.or_eq_true, beq_iff_eq, char_eq_iff_toNat]
  tauto

theorem isWS_toLowerChar (c : Char) : isWS (toLowerChar c) = isWS c := by
  rw [Bool.eq_iff_iff, isWS_iff, isWS_iff, toLowerChar_toNat]
  split <;> omega

theorem isDigit_iff (c : Char) : c.isDigit = true ↔ (48 ≤ c.toNat ∧ c.toNat ≤ 57) := by
  simp only [Char.isDigit, Bool.and_eq_true, decide_eq_true_eq, ge_iff_le]
  constructor
  · rintro ⟨h1, h2⟩
    exact ⟨h1, h2⟩
  · rintro ⟨h1, h2⟩
    exact ⟨h1, h2⟩

theorem toLowerChar_digit (c : Char) (h : c.isDigit = true) : toLowerChar c = c := by
  rw [isDigit_iff] at h
  rw [char_eq_iff_toNat, toLowerChar_toNat]
  split <;> omega

theorem isWS_digit (c : Char) (h : c.isDigit = true) : isWS c = false := by
  rw [isDigit_iff] at h
  cases hw : isWS c
  · rfl
  · rw [isWS_iff] at hw; omega

/-! ## String level: lower, strip, substring search, split -/

/-- Python `str.lower`. -/
def pyLower (s : LC) : LC := s.map toLowerChar

theorem pyLower_idem (s : LC) : pyLower (pyLower s) = pyLower s := by
  unfold pyLower
  rw [List.map_map]
  exact List.map_congr_left fun c _ => toLowerChar_idem c

theorem map_eq_self_of_mem {f : Char → Char} {l : LC} (h : l.map f = l) :
    ∀ c ∈ l, f c = c := by
  induction l with
  | nil => intro c hc; cases hc
  | cons a t ih =>
    intro c hc
    rw [List.map_cons, List.cons.injEq] at h
    cases hc with
    | head => exact h.1
    | tail _ hc => exact ih h.2 c hc

theorem pyLower_fix_mem {s : LC} (h : pyLower s = s) : ∀ c ∈ s, toLowerChar c = c :=
  map_eq_self_of_mem h

theorem pyLower_eq_self_of (s : LC) (h : ∀ c ∈ s, toLowerChar c = c) : pyLower s = s := by
  unfold pyLower
  induction s with
  | nil => rfl
  | cons a t ih =>
    rw [List.map_cons, h a (List.mem_cons_self a t), ih fun c hc => h c (List.mem_cons_of_mem a hc)]

/-- Membership of a special (non-letter) character is invariant under lowering. -/
theorem mem_pyLower_special (s : LC) (c0 : Char)
    (h1 : c0.toNat < 65 ∨ (90 < c0.toNat ∧ c0.toNat < 97) ∨ 122 < c0.toNat) :
    c0 ∈ pyLower s ↔ c0 ∈ s := by
  unfold pyLower
  rw [List.mem_map]
  constructor
  · rintro ⟨c, hc, hec⟩
    rw [toLowerChar_eq_special c c0 h1] at hec
    rwa [hec] at hc
  · intro hc
    exact ⟨c0, hc, (toLowerChar_eq_special c0 c0 h1).mpr rfl⟩

/-- Left strip. -/
def lstripWS (s : LC) : LC := s.dropWhile isWS

/-- Right strip. -/
def rstripWS (s : LC) : LC := (s.reverse.dropWhile isWS).reverse

/-- Python `str.strip` (ASCII whitespace). -/
def pyStrip (s : LC) : LC := rstripWS (lstripWS s)

theorem dropWhile_head_false {p : Char → Bool} {l : LC} {c : Char} {t : LC}
    (h : l.dropWhile p = c :: t) : p c = false := by
  induction l with
  | nil => cases h
  | cons a l ih =>
    rw [List.dropWhile_cons] at h
    split at h
    · exact ih h
    · next hp =>
      rw [List.cons.injEq] at h
      rw [← h.1]
      exact Bool.of_not_eq_true hp

theorem dropWhile_eq_self_of_head {p : Char → Bool} {l : LC}
    (h : ∀ c t, l = c :: t → p c = false) : l.dropWhile p = l := by
  cases l with
  | nil => rfl
  | cons a t =>
    rw [List.dropWhile_cons, h a t rfl]
    simp

theorem lstripWS_sublist (s : LC) : List.Sublist (lstripWS s) s := List.dropWhile_sublist isWS

theorem rstripWS_sublist (s : LC) : List.Sublist (rstripWS s) s := by
  unfold rstripWS
  have h : List.Sublist (s.reverse.dropWhile isWS) s.reverse := List.dropWhile_sublist isWS
  have h2 := h.reverse
  rwa [List.reverse_reverse] at h2

theorem pyStrip_sublist (s : LC) : List.Sublist (pyStrip s) s :=
  (rstripWS_sublist (lstripWS s)).trans (lstripWS_sublist s)

/-- A string none of whose characters are whitespace strips to itself. -/
theorem pyStrip_eq_self_of_noWS (s : LC) (h : ∀ c ∈ s, isWS c = false) : pyStrip s = s := by
  unfold pyStrip lstripWS rstripWS
  have h1 : s.dropWhile isWS = s :=
    dropWhile_eq_self_of_head fun c t hct => h c (by rw [hct]; exact List.mem_cons_self c t)
  rw [h1]
  have h2 : s.reverse.dropWhile isWS = s.reverse :=
    dropWhile_eq_self_of_head fun c t hct =>
      h c (List.mem_reverse.mp (by rw [hct]; exact List.mem_cons_self c t))
  rw [h2, List.reverse_reverse]

theorem dropWhile_self_head {p : Char → Bool} {l : LC} (h : l.dropWhile p = l) :
    ∀ c t, l = c :: t → p c = false := by
  intro c t hct
  subst hct
  rw [List.dropWhile_cons] at h
  split at h
  · have := List.dropWhile_sublist (l := t) p |>.length_le
    have h2 := congrArg List.length h
    simp at h2
    omega
  · next hp => exact Bool.of_not_eq_true hp

theorem dropWhile_idem (p : Char → Bool) (l : LC) :
    (l.dropWhile p).dropWhile p = l.dropWhile p := by
  cases h : l.dropWhile p with
  | nil => rfl
  | cons c t =>
    exact dropWhile_eq_self_of_head fun d u hdu => by
      rw [List.cons.injEq] at hdu
      exact hdu.1 ▸ dropWhile_head_false h

theorem lstripWS_idem (s : LC) : lstripWS (lstripWS s) = lstripWS s :=
  dropWhile_idem isWS s

theorem rstripWS_append (u : LC) : rstripWS u ++ (u.reverse.takeWhile isWS).reverse = u := by
  unfold rstripWS
  rw [← List.reverse_append, List.takeWhile_append_dropWhile, List.reverse_reverse]

theorem rstripWS_idem (u : LC) : rstripWS (rstripWS u) = rstripWS u := by
  unfold rstripWS
  rw [List.reverse_reverse, dropWhile_idem]

theorem lstripWS_rstripWS {u : LC} (h : lstripWS u = u) :
    lstripWS (rstripWS u) = rstripWS u := by
  cases hr : rstripWS u with
  | nil => rfl
  | cons c t =>
    have happ := rstripWS_append u
    rw [hr] at happ
    have hcu : ∃ w, u = c :: w := ⟨t ++ (u.reverse.takeWhile isWS).reverse, happ.symm⟩
    obtain ⟨w, hw⟩ := hcu
    have hc : isWS c = false := dropWhile_self_head h c w hw
    unfold lstripWS
    rw [List.dropWhile_cons, hc]
    simp

theorem pyStrip_idem (s : LC) : pyStrip (pyStrip s) = pyStrip s := by
  unfold pyStrip
  rw [lstripWS_rstripWS (lstripWS_idem s), rstripWS_idem]

theorem dropWhile_map_tl (p : Char → Bool) (hp : ∀ c, p (toLowerChar c) = p c) (s : LC) :
    (s.map toLowerChar).dropWhile p = (s.dropWhile p).map toLowerChar := by
  induction s with
  | nil => rfl
  | cons a t ih =>
    rw [List.map_cons, List.dropWhile_cons, List.dropWhile_cons, hp a]
    split
    · exact ih
    · rw [List.map_cons]

theorem pyStrip_pyLower (s : LC) : pyStrip (pyLower s) = pyLower (pyStrip s) := by
  unfold pyStrip lstripWS rstripWS pyLower
  rw [dropWhile_map_tl isWS isWS_toLowerChar s, ← List.map_reverse, dropWhile_map_tl isWS isWS_toLowerChar,
    List.map_reverse]

/-- Python `needle in hay` for strings: substring search. -/
def strContains (hay needle : LC) : Bool :=
  needle.isPrefixOf hay ||
    match hay with
    | [] => false
    | _ :: t => strContains t needle

theorem strContains_spec (hay needle : LC) :
    strContains hay needle = true ↔ needle <:+: hay := by
  induction hay with
  | nil =>
    rw [strContains]
    simp [List.isPrefixOf_iff_prefix]
  | cons a t ih =>
    rw [strContains]
    simp only [Bool.or_eq_true, List.isPrefixOf_iff_prefix, ih]
    constructor
    · rintro (h | h)
      · exact h.isInfix
      · exact h.trans (List.infix_cons List.infix_rfl)
    · intro h
      obtain ⟨s1, s2, hs⟩ := h
      cases s1 with
      | nil => exact Or.inl ⟨s2, by simpa using hs⟩
      | cons b s1 =>
        right
        simp only [List.cons_append, List.cons.injEq] at hs
        exact ⟨s1, s2, hs.2⟩

/-- Substring search is monotone under the infix order of needles. -/
theorem strContains_mono {hay n1 n2 : LC} (h12 : n2 <:+: n1)
    (h : strContains hay n1 = true) : strContains hay n2 = true :=
  (strContains_spec hay n2).mpr (h12.trans ((strContains_spec hay n1).mp h))

theorem strContains_false_mono {hay n1 n2 : LC} (h12 : n2 <:+: n1)
    (h : strContains hay n2 = false) : strContains hay n1 = false := by
  cases hc : strContains hay n1
  · rfl
  · rw [strContains_mono h12 hc] at h
    cases h

/-- Python single-character `str.split`: splits on every occurrence of
`sep`, keeping empty segments; the result is always non-empty. -/
def splitOn (sep : Char) : LC → List LC
  | [] => [[]]
  | c :: rest =>
    match splitOn sep rest with
    | [] => [[]]
    | h :: t => if c = sep then [] :: h :: t else (c :: h) :: t

theorem splitOn_cons (sep c : Char) (rest : LC) {h : LC} {t : List LC}
    (hs : splitOn sep rest = h :: t) :
    splitOn sep (c :: rest) = if c = sep then [] :: h :: t else (c :: h) :: t := by
  rw [splitOn, hs]

theorem splitOn_ne_nil (sep : Char) (s : LC) : splitOn sep s ≠ [] := by
  induction s with
  | nil => simp [splitOn]
  | cons c rest ih =>
    cases hs : splitOn sep rest with
    | nil => exact absurd hs ih
    | cons h t =>
      rw [splitOn_cons sep c rest hs]
      split <;> simp

/-- Joining the pieces with the separator restores the string. -/
def joinSep (sep : Char) : List LC → LC
  | [] => []
  | [a] => a
  | a :: b :: t => a ++ sep :: joinSep sep (b :: t)

theorem joinSep_splitOn (sep : Char) (s : LC) : joinSep sep (splitOn sep s) = s := by
  induction s with
  | nil => rfl
  | cons c rest ih =>
    cases hs : splitOn sep rest with
    | nil => exact absurd hs (splitOn_ne_nil sep rest)
    | cons h t =>
      rw [hs] at ih
      rw [splitOn_cons sep c rest hs]
      by_cases hc : c = sep
      · rw [if_pos hc]
        show [] ++ sep :: joinSep sep (h :: t) = c :: rest
        rw [List.nil_append, ih, hc]
      · rw [if_neg hc]
        cases t with
        | nil =>
          show c :: h = c :: rest
          rw [show joinSep sep [h] = h from rfl] at ih
          rw [ih]
        | cons b u =>
          show (c :: h) ++ sep :: joinSep sep (b :: u) = c :: rest
          rw [List.cons_append,
            show h ++ sep :: joinSep sep (b :: u) = joinSep sep (h :: b :: u) from rfl, ih]

theorem splitOn_parts_no_sep (sep : Char) (s : LC) :
    ∀ p ∈ splitOn sep s, sep ∉ p := by
  induction s with
  | nil =>
    intro p hp
    rw [splitOn] at hp
    rcases List.mem_singleton.mp hp with rfl
    exact List.not_mem_nil sep
  | cons c rest ih =>
    intro p hp
    cases hs : splitOn sep rest with
    | nil => exact absurd hs (splitOn_ne_nil sep rest)
    | cons h t =>
      rw [splitOn_cons sep c rest hs] at hp
      by_cases hc : c = sep
      · rw [if_pos hc] at hp
        rcases List.mem_cons.mp hp with rfl | hp2
        · exact List.not_mem_nil sep
        · exact ih p (by rw [hs]; exact hp2)
      · rw [if_neg hc] at hp
        rcases List.mem_cons.mp hp with rfl | hp2
        · intro hmem
          rcases List.mem_cons.mp hmem with he | hmem2
          · exact hc he.symm
          · exact ih h (by rw [hs]; exact List.mem_cons_self h t) hmem2
        · exact ih p (by rw [hs]; exact List.mem_cons_of_mem h hp2)

theorem splitOn_of_not_mem (sep : Char) (s : LC) (h : sep ∉ s) : splitOn sep s = [s] := by
  induction s with
  | nil => rfl
  | cons c rest ih =>
    have hrec : splitOn sep rest = [rest] := ih fun hm => h (List.mem_cons_of_mem c hm)
    rw [splitOn_cons sep c rest hrec]
    have hc : ¬c = sep := fun he => h (he ▸ List.mem_cons_self c rest)
    rw [if_neg hc]

theorem splitOn_append (sep : Char) (a b : LC) (h : sep ∉ a) :
    splitOn sep (a ++ sep :: b) = a :: splitOn sep b := by
  induction a with
  | nil =>
    rw [List.nil_append]
    cases hs : splitOn sep b with
    | nil => exact absurd hs (splitOn_ne_nil sep b)
    | cons hh tt =>
      rw [splitOn_cons sep sep b hs, if_pos rfl]
  | cons c a2 ih =>
    have hc : ¬c = sep := fun he => h (he ▸ List.mem_cons_self c a2)
    have hrec := ih fun hm => h (List.mem_cons_of_mem c hm)
    cases hs : splitOn sep (a2 ++ sep :: b) with
    | nil => exact absurd hs (splitOn_ne_nil sep _)
    | cons hh tt =>
      rw [List.cons_append, splitOn_cons sep c _ hs, if_neg hc]
      rw [hs] at hrec
      rw [List.cons.injEq] at hrec
      rw [hrec.1, hrec.2]

/-- A two-way split characterization. -/
theorem splitOn_eq_pair (sep : Char) (s x y : LC) (h : splitOn sep s = [x, y]) :
    s = x ++ sep :: y ∧ sep ∉ x ∧ sep ∉ y := by
  have hj := joinSep_splitOn sep s
  rw [h] at hj
  refine ⟨hj.symm, ?_, ?_⟩
  · exact splitOn_parts_no_sep sep s x (h ▸ List.mem_cons_self x [y])
  · exact splitOn_parts_no_sep sep s y (h ▸ List.mem_cons_of_mem x (List.mem_cons_self y []))

theorem splitOn_eq_triple (sep : Char) (s x y z : LC) (h : splitOn sep s = [x, y, z]) :
    s = x ++ sep :: (y ++ sep :: z) ∧ sep ∉ x ∧ sep ∉ y ∧ sep ∉ z := by
  have hj := joinSep_splitOn sep s
  rw [h] at hj
  refine ⟨?_, ?_, ?_, ?_⟩
  · rw [← hj]; rfl
  · exact splitOn_parts_no_sep sep s x (h ▸ List.mem_cons_self x [y, z])
  · exact splitOn_parts_no_sep sep s y (h ▸ List.mem_cons_of_mem x (List.mem_cons_self y [z]))
  · exact splitOn_parts_no_sep sep s z
      (h ▸ List.mem_cons_of_mem x (List.mem_cons_of_mem y (List.mem_cons_self z [])))

/-- Python `text.split(c)[0]`: the prefix before the first occurrence of `c`. -/
def takeUntil (c : Char) (s : LC) : LC := s.takeWhile (fun d => !(d = c : Bool))

/-- The remainder of the string after the first occurrence of `c`
(everything after it, later occurrences included); `[]` when `c` is absent. -/
def afterFirst (c : Char) (s : LC) : LC := (s.dropWhile (fun d => !(d = c : Bool))).tail

theorem takeUntil_not_mem (c : Char) (s : LC) : c ∉ takeUntil c s := by
  intro h
  have := List.mem_takeWhile_imp h
  simp at this

theorem takeUntil_sublist (c : Char) (s : LC) : List.Sublist (takeUntil c s) s :=
  List.takeWhile_sublist _

theorem afterFirst_sublist (c : Char) (s : LC) : List.Sublist (afterFirst c s) s :=
  (List.tail_sublist _).trans (List.dropWhile_sublist _)

theorem takeUntil_eq_self (c : Char) (s : LC) (h : c ∉ s) : takeUntil c s = s := by
  unfold takeUntil
  apply List.takeWhile_eq_self_iff.mpr
  intro d hd
  simp only [Bool.not_eq_true']
  exact decide_eq_false fun he => h (he ▸ hd)

/-- Python `str.rstrip` with a single given character. -/
def rstripChar (c : Char) (s : LC) : LC := (s.reverse.dropWhile (fun d => (d = c : Bool))).reverse

theorem rstripChar_eq_self (c : Char) (s : LC) (h : c ∉ s) : rstripChar c s = s := by
  unfold rstripChar
  rw [dropWhile_eq_self_of_head, List.reverse_reverse]
  intro d t hdt
  have hd : d ∈ s := List.mem_reverse.mp (by rw [hdt]; exact List.mem_cons_self d t)
  exact decide_eq_false fun he => h (he ▸ hd)

theorem rstripChar_sublist (c : Char) (s : LC) : List.Sublist (rstripChar c s) s := by
  unfold rstripChar
  have h : List.Sublist (s.reverse.dropWhile (fun d => (d = c : Bool))) s.reverse :=
    List.dropWhile_sublist _
  have h2 := h.reverse
  rwa [List.reverse_reverse] at h2

/-! ## Decimal numerals: Python `int(s)` and `str(n)` on digit strings -/

/-- One decimal digit as a character. -/
def digitChar : Nat → Char
  | 0 => '0' | 1 => '1' | 2 => '2' | 3 => '3' | 4 => '4'
  | 5 => '5' | 6 => '6' | 7 => '7' | 8 => '8' | 9 => '9'
  | _ => '*'

theorem digitChar_toNat (d : Nat) (h : d < 10) : (digitChar d).toNat = 48 + d := by
  interval_cases d <;> rfl

theorem digitChar_isDigit (d : Nat) (h : d < 10) : (digitChar d).isDigit = true := by
  interval_cases d <;> rfl

/-- Little-endian digit expansion with fuel. -/
def natDigitsRev (fuel n : Nat) : List Nat :=
  match fuel with
  | 0 => []
  | f + 1 => if n < 10 then [n] else (n % 10) :: natDigitsRev f (n / 10)

/-- Value of a little-endian digit list. -/
def ofDigitsLE : List Nat → Nat
  | [] => 0
  | d :: t => d + 10 * ofDigitsLE t

theorem ofDigitsLE_natDigitsRev (fuel n : Nat) (h : n ≤ fuel) :
    ofDigitsLE (natDigitsRev fuel n) = n := by
  induction fuel generalizing n with
  | zero =>
    have : n = 0 := Nat.le_zero.mp h
    subst this
    rfl
  | succ f ih =>
    rw [natDigitsRev]
    split
    · show n + 10 * 0 = n
      omega
    · next hn =>
      rw [ofDigitsLE, ih (n / 10) (by omega)]
      omega

theorem natDigitsRev_lt (fuel n : Nat) : ∀ d ∈ natDigitsRev fuel n, d < 10 := by
  induction fuel generalizing n with
  | zero => intro d hd; cases hd
  | succ f ih =>
    intro d hd
    rw [natDigitsRev] at hd
    split at hd
    · rcases List.mem_singleton.mp hd with rfl
      assumption
    · rcases List.mem_cons.mp hd with rfl | hd2
      · omega
      · exact ih (n / 10) d hd2

theorem natDigitsRev_ne_nil (f n : Nat) : natDigitsRev (f + 1) n ≠ [] := by
  rw [natDigitsRev]
  split <;> simp

/-- Python `str(n)` for a natural number. -/
def natRepr (n : Nat) : LC := ((natDigitsRev (n + 1) n).map digitChar).reverse

/-- Python `int(s)` on a string of decimal digits. -/
def parseNat (s : LC) : Nat := s.foldl (fun a c => 10 * a + (c.toNat - 48)) 0

theorem parseNat_append_one (l : LC) (c : Char) :
    parseNat (l ++ [c]) = 10 * parseNat l + (c.toNat - 48) := by
  unfold parseNat
  rw [List.foldl_append]
  rfl

theorem parseNat_natRepr (n : Nat) : parseNat (natRepr n) = n := by
  unfold natRepr
  have key : ∀ D : List Nat, (∀ d ∈ D, d < 10) →
      parseNat ((D.map digitChar).reverse) = ofDigitsLE D := by
    intro D
    induction D with
    | nil => intro _; rfl
    | cons d t ih =>
      intro hall
      rw [List.map_cons, List.reverse_cons, parseNat_append_one,
        ih fun e he => hall e (List.mem_cons_of_mem d he)]
      rw [digitChar_toNat d (hall d (List.mem_cons_self d t))]
      show 10 * ofDigitsLE t + (48 + d - 48) = d + 10 * ofDigitsLE t
      omega
  rw [key _ (natDigitsRev_lt (n + 1) n), ofDigitsLE_natDigitsRev (n + 1) n (Nat.le_succ n)]

theorem natRepr_ne_nil (n : Nat) : natRepr n ≠ [] := by
  unfold natRepr
  intro h
  rw [List.reverse_eq_nil_iff, List.map_eq_nil_iff] at h
  exact natDigitsRev_ne_nil n n h

theorem natRepr_all_digits (n : Nat) : ∀ c ∈ natRepr n, c.isDigit = true := by
  intro c hc
  unfold natRepr at hc
  rw [List.mem_reverse, List.mem_map] at hc
  obtain ⟨d, hd, hdc⟩ := hc
  rw [← hdc]
  exact digitChar_isDigit d (natDigitsRev_lt (n + 1) n d hd)

/-- Python `str.isdigit`: non-empty and all decimal digits. -/
def pyIsDigit (s : LC) : Bool := !s.isEmpty && s.all Char.isDigit

theorem pyIsDigit_natRepr (n : Nat) : pyIsDigit (natRepr n) = true := by
  unfold pyIsDigit
  rw [Bool.and_eq_true, List.all_eq_true]
  constructor
  · cases h : natRepr n with
    | nil => exact absurd h (natRepr_ne_nil n)
    | cons c t => rfl
  · exact natRepr_all_digits n

/-- The `str(int(p)) if p.isdigit() else p` idiom used to drop leading zeros. -/
def stripZeros (s : LC) : LC := if pyIsDigit s = true then natRepr (parseNat s) else s

theorem stripZeros_idem (s : LC) : stripZeros (stripZeros s) = stripZeros s := by
  unfold stripZeros
  split
  · rw [if_pos (pyIsDigit_natRepr (parseNat s)), parseNat_natRepr]
  · rfl

theorem stripZeros_all_digits_or_self (s : LC) :
    stripZeros s = s ∨ (∀ c ∈ stripZeros s, c.isDigit = true) := by
  unfold stripZeros
  split
  · exact Or.inr (natRepr_all_digits _)
  · exact Or.inl rfl

theorem stripZeros_not_mem (s : LC) (c0 : Char) (h0 : c0.isDigit = false) (h : c0 ∉ s) :
    c0 ∉ stripZeros s := by
  rcases stripZeros_all_digits_or_self s with he | hd
  · rwa [he]
  · intro hmem
    rw [hd c0 hmem] at h0
    cases h0

/-! ## Identifier canonicalizers -/

/-- From cyber_catalog.py, `clean_id`: take the part before the first
colon, strip it; if it has a parenthesized abbreviation return that
abbreviation stripped and lowercased, else lowercase the whole. -/
def clean_id (text : LC) : LC :=
  if '(' ∈ pyStrip (takeUntil ':' text) ∧ ')' ∈ pyStrip (takeUntil ':' text) then
    pyLower (pyStrip (takeUntil ')' (takeUntil '(' (afterFirst '(' (pyStrip (takeUntil ':' text))))))
  else
    pyLower (pyStrip (takeUntil ':' text))

/-- From cyber_mapping.py, `transform_csf_id`: strip and lowercase. -/
def transform_csf_id (csf_id : LC) : LC := pyLower (pyStrip csf_id)

/-- From cyber_mapping.py, `transform_control_id`: strip, drop trailing
commas, lowercase; for a `family-number` shape drop leading zeros, and
turn a parenthesized enhancement into a dotted suffix.  The Python tuple
unpacking `base, enhancement = number_part.split('(')` raises when the
number part holds more than one `(`; that exception is modelled by
`none`. -/
def transform_control_id (control_id : LC) : Option LC :=
  match splitOn '-' (pyLower (rstripChar ',' (pyStrip control_id))) with
  | [family, number_part] =>
    if '(' ∈ number_part then
      match splitOn '(' number_part with
      | [base, enh0] =>
        some (family ++ '-' :: (stripZeros base ++ '.' :: stripZeros (rstripChar ')' enh0)))
      | _ => none
    else
      some (family ++ '-' :: stripZeros number_part)
  | _ => some (pyLower (rstripChar ',' (pyStrip control_id)))

/-- From nist_mapping.py, `transform_rev5_id`: as `transform_control_id`
but with no trailing-comma removal. -/
def transform_rev5_id (control_id : LC) : Option LC :=
  match splitOn '-' (pyLower (pyStrip control_id)) with
  | [family, number_part] =>
    if '(' ∈ number_part then
      match splitOn '(' number_part with
      | [base, enh0] =>
        some (family ++ '-' :: (stripZeros base ++ '.' :: stripZeros (rstripChar ')' enh0)))
      | _ => none
    else
      some (family ++ '-' :: stripZeros number_part)
  | _ => some (pyLower (pyStrip control_id))

/-- From nist_mapping.py, `transform_rev4_id`: the triple-segment
SORT-AS notation `family-base-enhancement`; enhancement `00` means a
base control; any other segment count falls back to the lowercased,
stripped input. -/
def transform_rev4_id (sort_as_id : LC) : LC :=
  match splitOn '-' (pyLower (pyStrip sort_as_id)) with
  | [family, base_num, enhancement_num] =>
    if enhancement_num = ['0', '0'] then
      family ++ '-' :: stripZeros base_num
    else
      family ++ '-' :: (stripZeros base_num ++ '.' :: stripZeros enhancement_num)
  | _ => pyLower (pyStrip sort_as_id)

/-- Claim C4: the four canonicalization examples of the spec hold, for
both implementations of the dash-enhancement notation
(`transform_control_id` and `transform_rev5_id`) and for the
triple-segment notation (`transform_rev4_id`). -/
theorem C4_canonicalizer_examples :
    transform_control_id "AC-01".toList = some "ac-1".toList ∧
    transform_control_id "AC-2(1)".toList = some "ac-2.1".toList ∧
    transform_rev5_id "AC-01".toList = some "ac-1".toList ∧
    transform_rev5_id "AC-2(1)".toList = some "ac-2.1".toList ∧
    transform_rev4_id "AC-02-01".toList = "ac-2.1".toList ∧
    transform_rev4_id "AC-01-00".toList = "ac-1".toList := by
  refine ⟨?_, ?_, ?_, ?_, ?_, ?_⟩ <;> decide

/-! ## Relationship classifiers -/

/-- Phrase lists shared by nist_relationships.py and nist_mapping.py. -/
def ADDS : List LC := ["adds control text".toList, "adds parameter".toList]

def REMOVES : List LC := ["removes parameter".toList, "removes control text".toList]

def CHANGES_CONTROL : List LC := ["changes control text".toList, "changes parameter".toList]

def NEUTRAL : List LC :=
  ["changes discussion".toList, "adds discussion".toList, "changes title".toList,
   "adds to".toList, "n".toList]

def NEW : List LC := ["new base control".toList, "new control enhancement".toList]

/-- The non-neutral lines of the (already normalized) changedElements
text: split on newlines, keep the lines with non-empty strip, normalize
each, drop the ones starting with a NEUTRAL phrase.  This is the
`lines`/`substantive` computation shared by both classifiers. -/
def substantiveOf (ce : LC) : List LC :=
  (((splitOn (Char.ofNat 10) ce).filter (fun l => !(pyStrip l).isEmpty)).map
      (fun l => pyLower (pyStrip l))).filter
    (fun l => !NEUTRAL.any (fun p => p.isPrefixOf l))

/-- Rules 6 to 12, textually identical in nist_relationships.py
(classify) and nist_mapping.py (classify_relationship), which copies
them: new-control check, explicit no-change marker, neutral-only lines,
then the add/remove/changes-control signals searched in the whole
normalized changedElements text `ce`. -/
def classifyCommonTail (ce : LC) : LC :=
  if NEW.any (fun p => strContains ce p) then
    "no-relationship".toList
  else if ce == "n".toList then
    "equal-to".toList
  else if (substantiveOf ce).isEmpty then
    "equivalent-to".toList
  else if CHANGES_CONTROL.any (fun p => strContains ce p) then
    "intersects-with".toList
  else if ADDS.any (fun p => strContains ce p) && REMOVES.any (fun p => strContains ce p) then
    "intersects-with".toList
  else if ADDS.any (fun p => strContains ce p) && !REMOVES.any (fun p => strContains ce p) then
    "superset-of".toList
  else if REMOVES.any (fun p => strContains ce p) && !ADDS.any (fun p => strContains ce p) then
    "subset-of".toList
  else
    "intersects-with".toList

/-- From nist_relationships.py, `classify`.  Inputs are the raw cell
texts (a missing cell is the empty string); the function normalizes them
itself, as the source does. -/
def classify (changed_elements change_details : LC) : LC :=
  if strContains (pyLower (pyStrip change_details)) "withdrawn in rev4".toList &&
      strContains (pyLower (pyStrip change_details)) "restored in rev5".toList then
    "withdrawn4".toList
  else if strContains (pyLower (pyStrip change_details)) "previously withdrawn in rev4".toList then
    "withdrawn".toList
  else if pyLower (pyStrip changed_elements) == "withdrawn".toList then
    "withdrawn5".toList
  else
    classifyCommonTail (pyLower (pyStrip changed_elements))

/-- From nist_mapping.py, `classify_relationship`: the restored and
withdrawn labels reworked, an extra `withdrawn-error` rule, then the
same tail as `classify`. -/
def classify_relationship (changed_elements change_details : LC) : LC :=
  if strContains (pyLower (pyStrip change_details)) "withdrawn in rev4".toList &&
      strContains (pyLower (pyStrip change_details)) "restored in rev5".toList then
    "restored5".toList
  else if strContains (pyLower (pyStrip change_details)) "previously withdrawn in rev4".toList then
    "withdrawn4".toList
  else if strContains (pyLower (pyStrip change_details)) "withdrawn in rev4".toList &&
      (pyLower (pyStrip changed_elements) == "withdrawn".toList) &&
      !strContains (pyLower (pyStrip change_details)) "restored in rev5".toList then
    "withdrawn".toList
  else if pyLower (pyStrip changed_elements) == "withdrawn".toList then
    "withdrawn5".toList
  else if strContains (pyLower (pyStrip change_details)) "withdrawn in rev4".toList &&
      !strContains (pyLower (pyStrip change_details)) "restored in rev5".toList &&
      !strContains (pyLower (pyStrip change_details)) "previously withdrawn in rev4".toList then
    "withdrawn-error".toList
  else
    classifyCommonTail (pyLower (pyStrip changed_elements))

theorem classifyCommonTail_ne_error (s : LC) :
    classifyCommonTail s ≠ "withdrawn-error".toList := by
  unfold classifyCommonTail
  split_ifs <;> decide

/-- Claim C1, counterexample: the two classifier implementations
disagree on a concrete input pair.  On `changeDetails` containing both
withdrawal and restoration phrases, `classify` answers `withdrawn4`
while `classify_relationship` answers `restored5`; on a bare withdrawal
phrase they answer `intersects-with` versus `withdrawn-error`. -/
theorem C1_classifiers_disagree :
    classify [] "withdrawn in rev4, restored in rev5".toList ≠
      classify_relationship [] "withdrawn in rev4, restored in rev5".toList ∧
    classify [] "withdrawn in rev4, restored in rev5".toList = "withdrawn4".toList ∧
    classify_relationship [] "withdrawn in rev4, restored in rev5".toList = "restored5".toList ∧
    classify "x".toList "withdrawn in rev4".toList ≠
      classify_relationship "x".toList "withdrawn in rev4".toList := by
  refine ⟨?_, ?_, ?_, ?_⟩ <;> decide

/-- Claim C1, amended: the two classifiers return the same label on
every input whose normalized changeDetails does not contain the phrase
"withdrawn in rev4"; whenever that phrase is present the two
implementations may diverge on the withdrawn-family labels. -/
theorem C1_classifiers_agree (ce cd : LC)
    (h : strContains (pyLower (pyStrip cd)) "withdrawn in rev4".toList = false) :
    classify ce cd = classify_relationship ce cd := by
  have hinf : "withdrawn in rev4".toList <:+: "previously withdrawn in rev4".toList :=
    (strContains_spec _ _).mp (by decide)
  have hpw : strContains (pyLower (pyStrip cd)) "previously withdrawn in rev4".toList = false :=
    strContains_false_mono hinf h
  unfold classify classify_relationship
  rw [h, hpw]
  simp

/-- Witness for C1_classifiers_agree at a concrete input. -/
theorem C1_classifiers_agree_witness :
    strContains (pyLower (pyStrip "no details".toList)) "withdrawn in rev4".toList = false ∧
    classify "n".toList "no details".toList = classify_relationship "n".toList "no details".toList :=
  ⟨by decide, C1_classifiers_agree "n".toList "no details".toList (by decide)⟩

/-- Claim C3: `classify_relationship` answers `withdrawn-error` exactly
when the normalized changeDetails contains "withdrawn in rev4" while no
restoration phrase and no "previously withdrawn in rev4" phrase is
present and the normalized changedElements is not exactly "withdrawn"
(that is, none of rules 1 to 3 applies); being a function, it assigns
such an input no other label. -/
theorem C3_withdrawn_error_exact (ce cd : LC) :
    classify_relationship ce cd = "withdrawn-error".toList ↔
      (strContains (pyLower (pyStrip cd)) "withdrawn in rev4".toList = true ∧
       strContains (pyLower (pyStrip cd)) "restored in rev5".toList = false ∧
       strContains (pyLower (pyStrip cd)) "previously withdrawn in rev4".toList = false ∧
       ¬ pyLower (pyStrip ce) = "withdrawn".toList) := by
  have hne := classifyCommonTail_ne_error (pyLower (pyStrip ce))
  unfold classify_relationship
  by_cases hD : pyLower (pyStrip ce) = "withdrawn".toList <;>
    cases hA : strContains (pyLower (pyStrip cd)) "withdrawn in rev4".toList <;>
    cases hB : strContains (pyLower (pyStrip cd)) "restored in rev5".toList <;>
    cases hC : strContains (pyLower (pyStrip cd)) "previously withdrawn in rev4".toList <;>
    (try simp at hD hne) <;>
    simp [hA, hB, hC, hD, beq_iff_eq, hne]

/-- Claim C2, counterexample: the rule 9 signals are searched in the
whole changedElements text, not only in the remaining lines.  Two
inputs with identical, non-empty remaining-line sets are classified
differently because one holds "removes parameter" inside a discarded
neutral line (a line starting with "n"). -/
theorem C2_neutral_line_influences :
    substantiveOf (pyLower (pyStrip "adds control text\nnote removes parameter".toList)) =
      substantiveOf (pyLower (pyStrip "adds control text".toList)) ∧
    substantiveOf (pyLower (pyStrip "adds control text".toList)) ≠ [] ∧
    classify_relationship "adds control text".toList [] = "superset-of".toList ∧
    classify_relationship "adds control text\nnote removes parameter".toList [] =
      "intersects-with".toList := by
  refine ⟨?_, ?_, ?_, ?_⟩ <;> decide

/-- Rule 9 as the amended claim C2 reads it: the decision among
intersects-with, superset-of and subset-of from the add/remove/changes
signals searched in the WHOLE normalized changedElements text. -/
def ruleNineWholeText (t : LC) : LC :=
  if CHANGES_CONTROL.any (fun p => strContains t p) then "intersects-with".toList
  else if ADDS.any (fun p => strContains t p) && REMOVES.any (fun p => strContains t p) then
    "intersects-with".toList
  else if ADDS.any (fun p => strContains t p) then "superset-of".toList
  else if REMOVES.any (fun p => strContains t p) then "subset-of".toList
  else "intersects-with".toList

/-- Claim C2, amended: for every input reaching rule 9 (no withdrawal
phrase, changedElements neither "withdrawn" nor "n" nor a new-control
text, and a non-empty remaining-line set), the classifier decides from
the adds/removes/changes-control phrases searched in the whole
normalized changedElements text, neutral lines included. -/
theorem C2_signals_from_whole_text (ce cd : LC)
    (hw : strContains (pyLower (pyStrip cd)) "withdrawn in rev4".toList = false)
    (hwd : ¬ pyLower (pyStrip ce) = "withdrawn".toList)
    (hnew : NEW.any (fun p => strContains (pyLower (pyStrip ce)) p) = false)
    (hn : ¬ pyLower (pyStrip ce) = "n".toList)
    (hsub : (substantiveOf (pyLower (pyStrip ce))).isEmpty = false) :
    classify_relationship ce cd = ruleNineWholeText (pyLower (pyStrip ce)) := by
  have hinf : "withdrawn in rev4".toList <:+: "previously withdrawn in rev4".toList :=
    (strContains_spec _ _).mp (by decide)
  have hpw : strContains (pyLower (pyStrip cd)) "previously withdrawn in rev4".toList = false :=
    strContains_false_mono hinf hw
  unfold classify_relationship classifyCommonTail ruleNineWholeText
  rw [hw, hpw]
  cases hc : CHANGES_CONTROL.any (fun p => strContains (pyLower (pyStrip ce)) p) <;>
    cases hA : ADDS.any (fun p => strContains (pyLower (pyStrip ce)) p) <;>
    cases hR : REMOVES.any (fun p => strContains (pyLower (pyStrip ce)) p) <;>
    (try simp at hwd hn) <;>
    simp [hwd, hnew, hn, hsub, hc, hA, hR, beq_iff_eq]

/-- Witness for C2_signals_from_whole_text at a concrete input. -/
theorem C2_signals_witness :
    classify_relationship "adds control text".toList [] =
      ruleNineWholeText (pyLower (pyStrip "adds control text".toList)) :=
  C2_signals_from_whole_text "adds control text".toList []
    (by decide) (by decide) (by decide) (by decide) (by decide)

/-! ## Idempotence of the canonicalizers (claim C5) -/

theorem not_mem_of_sublist {a b : LC} {c : Char} (hs : List.Sublist a b) (h : c ∉ b) : c ∉ a :=
  fun hm => h (hs.subset hm)

theorem pyIsDigit_false_of_mem (s : LC) (c0 : Char) (hm : c0 ∈ s) (hd : c0.isDigit = false) :
    pyIsDigit s = false := by
  unfold pyIsDigit
  cases hall : s.all Char.isDigit
  · exact Bool.and_false _
  · rw [List.all_eq_true] at hall
    rw [hall c0 hm] at hd
    cases hd

theorem noWS_pyLower (s : LC) (h : ∀ c ∈ s, isWS c = false) :
    ∀ c ∈ pyLower s, isWS c = false := by
  intro c hc
  rw [pyLower, List.mem_map] at hc
  obtain ⟨d, hd, rfl⟩ := hc
  rw [isWS_toLowerChar]
  exact h d hd

/-- Equation lemmas for `transform_rev4_id`. -/
theorem transform_rev4_id_eq3 (x f b e : LC)
    (h : splitOn '-' (pyLower (pyStrip x)) = [f, b, e]) :
    transform_rev4_id x =
      if e = ['0', '0'] then f ++ '-' :: stripZeros b
      else f ++ '-' :: (stripZeros b ++ '.' :: stripZeros e) := by
  unfold transform_rev4_id
  rw [h]

theorem transform_rev4_id_other (x : LC)
    (h : (splitOn '-' (pyLower (pyStrip x))).length ≠ 3) :
    transform_rev4_id x = pyLower (pyStrip x) := by
  unfold transform_rev4_id
  rcases hl : splitOn '-' (pyLower (pyStrip x)) with _ | ⟨a, _ | ⟨b, _ | ⟨c, _ | ⟨d, t⟩⟩⟩⟩ <;>
    first
      | rfl
      | (rw [hl] at h; simp at h)

/-- Equation lemmas for `transform_control_id`. -/
theorem transform_control_id_noparen (x f np : LC)
    (h : splitOn '-' (pyLower (rstripChar ',' (pyStrip x))) = [f, np]) (hp : '(' ∉ np) :
    transform_control_id x = some (f ++ '-' :: stripZeros np) := by
  have he : transform_control_id x =
      (if '(' ∈ np then
        (match splitOn '(' np with
          | [base, enh0] =>
            some (f ++ '-' :: (stripZeros base ++ '.' :: stripZeros (rstripChar ')' enh0)))
          | _ => none)
      else some (f ++ '-' :: stripZeros np)) := by
    unfold transform_control_id
    rw [h]
  rw [he, if_neg hp]

theorem transform_control_id_paren (x f np b e0 : LC)
    (h : splitOn '-' (pyLower (rstripChar ',' (pyStrip x))) = [f, np]) (hp : '(' ∈ np)
    (h2 : splitOn '(' np = [b, e0]) :
    transform_control_id x =
      some (f ++ '-' :: (stripZeros b ++ '.' :: stripZeros (rstripChar ')' e0))) := by
  have he : transform_control_id x =
      (if '(' ∈ np then
        (match splitOn '(' np with
          | [base, enh0] =>
            some (f ++ '-' :: (stripZeros base ++ '.' :: stripZeros (rstripChar ')' enh0)))
          | _ => none)
      else some (f ++ '-' :: stripZeros np)) := by
    unfold transform_control_id
    rw [h]
  rw [he, if_pos hp, h2]

theorem transform_control_id_other (x : LC)
    (h : (splitOn '-' (pyLower (rstripChar ',' (pyStrip x)))).length ≠ 2) :
    transform_control_id x = some (pyLower (rstripChar ',' (pyStrip x))) := by
  unfold transform_control_id
  rcases hl : splitOn '-' (pyLower (rstripChar ',' (pyStrip x))) with _ | ⟨a, _ | ⟨b, _ | ⟨c, t⟩⟩⟩ <;>
    first
      | rfl
      | (rw [hl] at h; simp at h)

theorem stripZeros_eq_self (s : LC) (h : pyIsDigit s = false) : stripZeros s = s := by
  unfold stripZeros
  rw [h]
  simp

theorem noWS_stripZeros (b : LC) (h : ∀ c ∈ b, isWS c = false) :
    ∀ c ∈ stripZeros b, isWS c = false := by
  rcases stripZeros_all_digits_or_self b with he | hd
  · rw [he]; exact h
  · intro c hc
    exact isWS_digit c (hd c hc)

theorem toLower_fix_stripZeros (b : LC) (h : ∀ c ∈ b, toLowerChar c = c) :
    ∀ c ∈ stripZeros b, toLowerChar c = c := by
  rcases stripZeros_all_digits_or_self b with he | hd
  · rw [he]; exact h
  · intro c hc
    exact toLowerChar_digit c (hd c hc)

/-- `clean_id` maps a string that is already in clean form (no colon, no
whitespace at the edges, lowercase, no matched parentheses) to itself. -/
theorem clean_id_of_clean (y : LC) (hcolon : ':' ∉ y) (hstrip : pyStrip y = y)
    (hlower : pyLower y = y) (hparen : ¬('(' ∈ y ∧ ')' ∈ y)) : clean_id y = y := by
  unfold clean_id
  rw [takeUntil_eq_self ':' y hcolon, hstrip, if_neg hparen, hlower]

/-- Idempotence of `clean_id` on every input. -/
theorem clean_id_idem (x : LC) : clean_id (clean_id x) = clean_id x := by
  by_cases hc : '(' ∈ pyStrip (takeUntil ':' x) ∧ ')' ∈ pyStrip (takeUntil ':' x)
  · have hy : clean_id x =
        pyLower (pyStrip (takeUntil ')' (takeUntil '(' (afterFirst '(' (pyStrip (takeUntil ':' x)))))) := by
      unfold clean_id
      rw [if_pos hc]
    have hcolon_t : ':' ∉ pyStrip (takeUntil ':' x) :=
      not_mem_of_sublist (pyStrip_sublist _) (takeUntil_not_mem ':' x)
    have hu_sub : List.Sublist
        (takeUntil ')' (takeUntil '(' (afterFirst '(' (pyStrip (takeUntil ':' x)))))
        (pyStrip (takeUntil ':' x)) :=
      (takeUntil_sublist ')' _).trans
        ((takeUntil_sublist '(' _).trans (afterFirst_sublist '(' _))
    have hcolon_u : ':' ∉ takeUntil ')' (takeUntil '(' (afterFirst '(' (pyStrip (takeUntil ':' x)))) :=
      not_mem_of_sublist hu_sub hcolon_t
    have hparen_u : '(' ∉ takeUntil ')' (takeUntil '(' (afterFirst '(' (pyStrip (takeUntil ':' x)))) :=
      not_mem_of_sublist (takeUntil_sublist ')' _) (takeUntil_not_mem '(' _)
    rw [hy]
    refine clean_id_of_clean _ ?_ ?_ (pyLower_idem _) ?_
    · intro hm
      exact hcolon_u ((pyStrip_sublist _).subset ((mem_pyLower_special _ ':' (by decide)).mp hm))
    · rw [pyStrip_pyLower, pyStrip_idem]
    · intro hA
      exact hparen_u ((pyStrip_sublist _).subset ((mem_pyLower_special _ '(' (by decide)).mp hA.1))
  · have hy : clean_id x = pyLower (pyStrip (takeUntil ':' x)) := by
      unfold clean_id
      rw [if_neg hc]
    have hcolon_t : ':' ∉ pyStrip (takeUntil ':' x) :=
      not_mem_of_sublist (pyStrip_sublist _) (takeUntil_not_mem ':' x)
    rw [hy]
    refine clean_id_of_clean _ ?_ ?_ (pyLower_idem _) ?_
    · intro hm
      exact hcolon_t ((mem_pyLower_special _ ':' (by decide)).mp hm)
    · rw [pyStrip_pyLower, pyStrip_idem]
    · intro hA
      exact hc ⟨(mem_pyLower_special _ '(' (by decide)).mp hA.1,
        (mem_pyLower_special _ ')' (by decide)).mp hA.2⟩

/-- `transform_rev4_id` maps a whitespace-free two-segment string to
itself (the second pass of the idempotence argument). -/
theorem transform_rev4_id_two_part (f r : LC)
    (hWSy : ∀ c ∈ f ++ '-' :: r, isWS c = false)
    (hLy : pyLower (f ++ '-' :: r) = f ++ '-' :: r)
    (hf : '-' ∉ f) (hr : '-' ∉ r) :
    transform_rev4_id (f ++ '-' :: r) = f ++ '-' :: r := by
  have hS : pyStrip (f ++ '-' :: r) = f ++ '-' :: r := pyStrip_eq_self_of_noWS _ hWSy
  have hsplit : splitOn '-' (f ++ '-' :: r) = [f, r] := by
    rw [splitOn_append '-' f r hf, splitOn_of_not_mem '-' r hr]
  have hlen : (splitOn '-' (pyLower (pyStrip (f ++ '-' :: r)))).length ≠ 3 := by
    rw [hS, hLy, hsplit]
    simp
  rw [transform_rev4_id_other _ hlen, hS, hLy]

/-- Idempotence of `transform_rev4_id` on whitespace-free inputs. -/
theorem transform_rev4_id_idem_noWS (x : LC) (hWS : ∀ c ∈ x, isWS c = false) :
    transform_rev4_id (transform_rev4_id x) = transform_rev4_id x := by
  have hSx : pyStrip x = x := pyStrip_eq_self_of_noWS x hWS
  have hsWS : ∀ c ∈ pyLower x, isWS c = false := noWS_pyLower x hWS
  have hsS : pyStrip (pyLower x) = pyLower x := pyStrip_eq_self_of_noWS _ hsWS
  have hsL : pyLower (pyLower x) = pyLower x := pyLower_idem x
  have hsfix : ∀ c ∈ pyLower x, toLowerChar c = c := pyLower_fix_mem hsL
  by_cases h3 : ∃ f b e, splitOn '-' (pyLower x) = [f, b, e]
  · obtain ⟨f, b, e, hsplit⟩ := h3
    obtain ⟨hseq, hnf, hnb, hne⟩ := splitOn_eq_triple '-' (pyLower x) f b e hsplit
    have hmem : ∀ c, c ∈ f ∨ c ∈ b ∨ c ∈ e → c ∈ pyLower x := by
      intro c hcase
      rw [hseq]
      rcases hcase with hcf | hcb | hce
      · exact List.mem_append_left _ hcf
      · exact List.mem_append_right f (List.mem_cons_of_mem '-' (List.mem_append_left _ hcb))
      · exact List.mem_append_right f
          (List.mem_cons_of_mem '-' (List.mem_append_right _ (List.mem_cons_of_mem '-' hce)))
    rw [transform_rev4_id_eq3 x f b e (by rw [hSx]; exact hsplit)]
    by_cases h00 : e = ['0', '0']
    · rw [if_pos h00]
      refine transform_rev4_id_two_part f (stripZeros b) ?_ ?_ hnf
        (stripZeros_not_mem b '-' (by decide) hnb)
      · intro c hcm
        rcases List.mem_append.mp hcm with hcf | hcr
        · exact hsWS c (hmem c (Or.inl hcf))
        · rcases List.mem_cons.mp hcr with rfl | hcr2
          · decide
          · exact noWS_stripZeros b (fun d hd => hsWS d (hmem d (Or.inr (Or.inl hd)))) c hcr2
      · refine pyLower_eq_self_of _ ?_
        intro c hcm
        rcases List.mem_append.mp hcm with hcf | hcr
        · exact hsfix c (hmem c (Or.inl hcf))
        · rcases List.mem_cons.mp hcr with rfl | hcr2
          · decide
          · exact toLower_fix_stripZeros b (fun d hd => hsfix d (hmem d (Or.inr (Or.inl hd)))) c hcr2
    · rw [if_neg h00]
      refine transform_rev4_id_two_part f (stripZeros b ++ '.' :: stripZeros e) ?_ ?_ hnf ?_
      · intro c hcm
        rcases List.mem_append.mp hcm with hcf | hcr
        · exact hsWS c (hmem c (Or.inl hcf))
        · rcases List.mem_cons.mp hcr with rfl | hcr2
          · decide
          · rcases List.mem_append.mp hcr2 with hcb | hce2
            · exact noWS_stripZeros b (fun d hd => hsWS d (hmem d (Or.inr (Or.inl hd)))) c hcb
            · rcases List.mem_cons.mp hce2 with rfl | hce3
              · decide
              · exact noWS_stripZeros e (fun d hd => hsWS d (hmem d (Or.inr (Or.inr hd)))) c hce3
      · refine pyLower_eq_self_of _ ?_
        intro c hcm
        rcases List.mem_append.mp hcm with hcf | hcr
        · exact hsfix c (hmem c (Or.inl hcf))
        · rcases List.mem_cons.mp hcr with rfl | hcr2
          · decide
          · rcases List.mem_append.mp hcr2 with hcb | hce2
            · exact toLower_fix_stripZeros b (fun d hd => hsfix d (hmem d (Or.inr (Or.inl hd)))) c hcb
            · rcases List.mem_cons.mp hce2 with rfl | hce3
              · decide
              · exact toLower_fix_stripZeros e (fun d hd => hsfix d (hmem d (Or.inr (Or.inr hd)))) c hce3
      · intro hm
        rcases List.mem_append.mp hm with hcb | hce2
        · exact stripZeros_not_mem b '-' (by decide) hnb hcb
        · rcases List.mem_cons.mp hce2 with he2 | hce3
          · cases he2
          · exact stripZeros_not_mem e '-' (by decide) hne hce3
  · have hlen : (splitOn '-' (pyLower (pyStrip x))).length ≠ 3 := by
      rw [hSx]
      intro hl
      obtain ⟨f, b, e, hfbe⟩ := List.length_eq_three.mp hl
      exact h3 ⟨f, b, e, hfbe⟩
    rw [transform_rev4_id_other x hlen, hSx]
    have hlen2 : (splitOn '-' (pyLower (pyStrip (pyLower x)))).length ≠ 3 := by
      rw [hsS, hsL]
      rw [hSx] at hlen
      exact hlen
    rw [transform_rev4_id_other (pyLower x) hlen2, hsS, hsL]

/-- Missing equation lemma: the paren branch with a malformed number
part (more than one opening parenthesis) raises in Python; the model
answers `none`. -/
theorem transform_control_id_paren_other (x f np : LC)
    (h : splitOn '-' (pyLower (rstripChar ',' (pyStrip x))) = [f, np]) (hp : '(' ∈ np)
    (h2 : (splitOn '(' np).length ≠ 2) :
    transform_control_id x = none := by
  have he : transform_control_id x =
      (if '(' ∈ np then
        (match splitOn '(' np with
          | [base, enh0] =>
            some (f ++ '-' :: (stripZeros base ++ '.' :: stripZeros (rstripChar ')' enh0)))
          | _ => none)
      else some (f ++ '-' :: stripZeros np)) := by
    unfold transform_control_id
    rw [h]
  rw [he, if_pos hp]
  rcases hl : splitOn '(' np with _ | ⟨a, _ | ⟨b, _ | ⟨c, t⟩⟩⟩ <;>
    first
      | rfl
      | (rw [hl] at h2; simp at h2)

/-- `transform_control_id` maps an already-canonical two-segment string
(whitespace-free, comma-free, lowercase, no parenthesis and no leading
zeros in the number part) to itself. -/
theorem transform_control_id_two_part (f r : LC)
    (hWSy : ∀ c ∈ f ++ '-' :: r, isWS c = false)
    (hLy : pyLower (f ++ '-' :: r) = f ++ '-' :: r)
    (hCy : ',' ∉ f ++ '-' :: r)
    (hf : '-' ∉ f) (hr : '-' ∉ r) (hpr : '(' ∉ r)
    (hfix : stripZeros r = r) :
    transform_control_id (f ++ '-' :: r) = some (f ++ '-' :: r) := by
  have hS : pyStrip (f ++ '-' :: r) = f ++ '-' :: r := pyStrip_eq_self_of_noWS _ hWSy
  have hC : rstripChar ',' (f ++ '-' :: r) = f ++ '-' :: r := rstripChar_eq_self ',' _ hCy
  have hsplit : splitOn '-' (pyLower (rstripChar ',' (pyStrip (f ++ '-' :: r)))) = [f, r] := by
    rw [hS, hC, hLy, splitOn_append '-' f r hf, splitOn_of_not_mem '-' r hr]
  rw [transform_control_id_noparen _ f r hsplit hpr, hfix]

/-- Idempotence of `transform_control_id` (in the bind sense, `none`
modelling the Python exception) on whitespace-free, comma-free inputs. -/
theorem transform_control_id_idem_noWS_noComma (x : LC)
    (hWS : ∀ c ∈ x, isWS c = false) (hComma : ',' ∉ x) :
    (transform_control_id x).bind transform_control_id = transform_control_id x := by
  have hSx : pyStrip x = x := pyStrip_eq_self_of_noWS x hWS
  have hCx : rstripChar ',' x = x := rstripChar_eq_self ',' x hComma
  have hsWS : ∀ c ∈ pyLower x, isWS c = false := noWS_pyLower x hWS
  have hsS : pyStrip (pyLower x) = pyLower x := pyStrip_eq_self_of_noWS _ hsWS
  have hsL : pyLower (pyLower x) = pyLower x := pyLower_idem x
  have hsfix : ∀ c ∈ pyLower x, toLowerChar c = c := pyLower_fix_mem hsL
  have hsComma : ',' ∉ pyLower x := fun hm => hComma ((mem_pyLower_special x ',' (by decide)).mp hm)
  have hsC : rstripChar ',' (pyLower x) = pyLower x := rstripChar_eq_self ',' _ hsComma
  by_cases h2 : ∃ f np, splitOn '-' (pyLower x) = [f, np]
  · obtain ⟨f, np, hsplit⟩ := h2
    obtain ⟨hseq, hnf, hnnp⟩ := splitOn_eq_pair '-' (pyLower x) f np hsplit
    have hmem : ∀ c, c ∈ f ∨ c ∈ np → c ∈ pyLower x := by
      intro c hcase
      rw [hseq]
      rcases hcase with hcf | hcnp
      · exact List.mem_append_left _ hcf
      · exact List.mem_append_right f (List.mem_cons_of_mem '-' hcnp)
    by_cases hp : '(' ∈ np
    · by_cases hsp : ∃ b e0, splitOn '(' np = [b, e0]
      · obtain ⟨b, e0, hsplitp⟩ := hsp
        obtain ⟨hnpeq, hpb, hpe0⟩ := splitOn_eq_pair '(' np b e0 hsplitp
        have hmem_b : ∀ c ∈ b, c ∈ np := by
          intro c hc
          rw [hnpeq]
          exact List.mem_append_left _ hc
        have hmem_e0 : ∀ c ∈ e0, c ∈ np := by
          intro c hc
          rw [hnpeq]
          exact List.mem_append_right b (List.mem_cons_of_mem '(' hc)
        have hmem_e1 : ∀ c ∈ rstripChar ')' e0, c ∈ np :=
          fun c hc => hmem_e0 c ((rstripChar_sublist ')' e0).subset hc)
        rw [transform_control_id_paren x f np b e0
          (by rw [hSx, hCx]; exact hsplit) hp hsplitp]
        rw [Option.some_bind]
        have hdot : '.' ∈ stripZeros b ++ '.' :: stripZeros (rstripChar ')' e0) :=
          List.mem_append_right _ (List.mem_cons_self '.' _)
        refine transform_control_id_two_part f
          (stripZeros b ++ '.' :: stripZeros (rstripChar ')' e0)) ?_ ?_ ?_ hnf ?_ ?_ ?_
        · intro c hcm
          rcases List.mem_append.mp hcm with hcf | hcr
          · exact hsWS c (hmem c (Or.inl hcf))
          · rcases List.mem_cons.mp hcr with rfl | hcr2
            · decide
            · rcases List.mem_append.mp hcr2 with hcb | hce2
              · exact noWS_stripZeros b
                  (fun d hd => hsWS d (hmem d (Or.inr (hmem_b d hd)))) c hcb
              · rcases List.mem_cons.mp hce2 with rfl | hce3
                · decide
                · exact noWS_stripZeros _
                    (fun d hd => hsWS d (hmem d (Or.inr (hmem_e1 d hd)))) c hce3
        · refine pyLower_eq_self_of _ ?_
          intro c hcm
          rcases List.mem_append.mp hcm with hcf | hcr
          · exact hsfix c (hmem c (Or.inl hcf))
          · rcases List.mem_cons.mp hcr with rfl | hcr2
            · decide
            · rcases List.mem_append.mp hcr2 with hcb | hce2
              · exact toLower_fix_stripZeros b
                  (fun d hd => hsfix d (hmem d (Or.inr (hmem_b d hd)))) c hcb
              · rcases List.mem_cons.mp hce2 with rfl | hce3
                · decide
                · exact toLower_fix_stripZeros _
                    (fun d hd => hsfix d (hmem d (Or.inr (hmem_e1 d hd)))) c hce3
        · intro hcm
          rcases List.mem_append.mp hcm with hcf | hcr
          · exact hsComma (hmem ',' (Or.inl hcf))
          · rcases List.mem_cons.mp hcr with he | hcr2
            · cases he
            · rcases List.mem_append.mp hcr2 with hcb | hce2
              · exact hsComma (hmem ',' (Or.inr (hmem_b ','
                  (stripZeros_not_mem b ',' (by decide)
                    (fun hm => hsComma (hmem ',' (Or.inr (hmem_b ',' hm)))) hcb |>.elim))))
              · rcases List.mem_cons.mp hce2 with he | hce3
                · cases he
                · exact stripZeros_not_mem _ ',' (by decide)
                    (fun hm => hsComma (hmem ',' (Or.inr (hmem_e1 ',' hm)))) hce3
        · intro hcm
          rcases List.mem_append.mp hcm with hcb | hce2
          · exact stripZeros_not_mem b '-' (by decide)
              (fun hm => hnnp (hmem_b '-' hm)) hcb
          · rcases List.mem_cons.mp hce2 with he | hce3
            · cases he
            · exact stripZeros_not_mem _ '-' (by decide)
                (fun hm => hnnp (hmem_e1 '-' hm)) hce3
        · intro hcm
          rcases List.mem_append.mp hcm with hcb | hce2
          · exact stripZeros_not_mem b '(' (by decide) hpb hcb
          · rcases List.mem_cons.mp hce2 with he | hce3
            · cases he
            · refine stripZeros_not_mem _ '(' (by decide) ?_ hce3
              intro hm
              exact hpe0 ((rstripChar_sublist ')' e0).subset hm)
        · exact stripZeros_eq_self _ (pyIsDigit_false_of_mem _ '.' hdot (by decide))
      · have hlen : (splitOn '(' np).length ≠ 2 := by
          intro hl
          obtain ⟨b, e0, hbe⟩ := List.length_eq_two.mp hl
          exact hsp ⟨b, e0, hbe⟩
        rw [transform_control_id_paren_other x f np (by rw [hSx, hCx]; exact hsplit) hp hlen]
        rfl
    · rw [transform_control_id_noparen x f np (by rw [hSx, hCx]; exact hsplit) hp]
      rw [Option.some_bind]
      refine transform_control_id_two_part f (stripZeros np) ?_ ?_ ?_ hnf
        (stripZeros_not_mem np '-' (by decide) hnnp)
        (stripZeros_not_mem np '(' (by decide) hp)
        (stripZeros_idem np)
      · intro c hcm
        rcases List.mem_append.mp hcm with hcf | hcr
        · exact hsWS c (hmem c (Or.inl hcf))
        · rcases List.mem_cons.mp hcr with rfl | hcr2
          · decide
          · exact noWS_stripZeros np (fun d hd => hsWS d (hmem d (Or.inr hd))) c hcr2
      · refine pyLower_eq_self_of _ ?_
        intro c hcm
        rcases List.mem_append.mp hcm with hcf | hcr
        · exact hsfix c (hmem c (Or.inl hcf))
        · rcases List.mem_cons.mp hcr with rfl | hcr2
          · decide
          · exact toLower_fix_stripZeros np (fun d hd => hsfix d (hmem d (Or.inr hd))) c hcr2
      · intro hcm
        rcases List.mem_append.mp hcm with hcf | hcr
        · exact hsComma (hmem ',' (Or.inl hcf))
        · rcases List.mem_cons.mp hcr with he | hcr2
          · cases he
          · exact stripZeros_not_mem np ',' (by decide)
              (fun hm => hsComma (hmem ',' (Or.inr hm))) hcr2
  · have hlen : (splitOn '-' (pyLower (rstripChar ',' (pyStrip x)))).length ≠ 2 := by
      rw [hSx, hCx]
      intro hl
      obtain ⟨f, np, hfnp⟩ := List.length_eq_two.mp hl
      exact h2 ⟨f, np, hfnp⟩
    rw [transform_control_id_other x hlen, hSx, hCx, Option.some_bind]
    have hlen2 : (splitOn '-' (pyLower (rstripChar ',' (pyStrip (pyLower x))))).length ≠ 2 := by
      rw [hsS, hsC, hsL]
      rw [hSx, hCx] at hlen
      exact hlen
    rw [transform_control_id_other (pyLower x) hlen2, hsS, hsC, hsL]

/-- Claim C5, counterexample: canonicalization is NOT idempotent for
every input string.  For the triple-segment notation,
`"ac-1 -00"` maps to `"ac-1 "` (the non-digit segment `"1 "` keeps its
trailing space) and a second pass strips it to `"ac-1"`.  For the
dash-enhancement notation, `"ac-1 ,"` maps to `"ac-1 "` and then to
`"ac-1"`, and the comma-free `"AC-2(1,)"` maps to `"ac-2.1,"` and then
to `"ac-2.1"`. -/
theorem C5_not_idempotent :
    transform_rev4_id (transform_rev4_id "ac-1 -00".toList) ≠
      transform_rev4_id "ac-1 -00".toList ∧
    (transform_control_id "ac-1 ,".toList).bind transform_control_id ≠
      transform_control_id "ac-1 ,".toList ∧
    (transform_control_id "AC-2(1,)".toList).bind transform_control_id ≠
      transform_control_id "AC-2(1,)".toList := by
  refine ⟨?_, ?_, ?_⟩ <;> decide

/-- Claim C5, amended: canonicalization is idempotent for the
dotted-hierarchy notation (`clean_id`) on every input; for the
dash-enhancement notation (`transform_control_id`, composition in the
bind sense with `none` modelling the Python unpack exception) on every
whitespace-free and comma-free input; and for the triple-segment
notation (`transform_rev4_id`) on every whitespace-free input.  On
general inputs it can fail, as the counterexample shows. -/
theorem C5_idempotence_amended :
    (∀ x : LC, clean_id (clean_id x) = clean_id x) ∧
    (∀ x : LC, (∀ c ∈ x, isWS c = false) → ',' ∉ x →
      (transform_control_id x).bind transform_control_id = transform_control_id x) ∧
    (∀ x : LC, (∀ c ∈ x, isWS c = false) →
      transform_rev4_id (transform_rev4_id x) = transform_rev4_id x) :=
  ⟨clean_id_idem, transform_control_id_idem_noWS_noComma, transform_rev4_id_idem_noWS⟩

/-- Witness for C5_idempotence_amended at concrete inputs. -/
theorem C5_idempotence_witness :
    clean_id (clean_id "GOVERN (GV): intro".toList) = clean_id "GOVERN (GV): intro".toList ∧
    (transform_control_id "AC-2(1)".toList).bind transform_control_id =
      transform_control_id "AC-2(1)".toList ∧
    transform_rev4_id (transform_rev4_id "AC-02-01".toList) =
      transform_rev4_id "AC-02-01".toList :=
  ⟨C5_idempotence_amended.1 _,
   C5_idempotence_amended.2.1 "AC-2(1)".toList (by decide) (by decide),
   C5_idempotence_amended.2.2 "AC-02-01".toList (by decide)⟩

/-! ## Hierarchical catalog builder (cyber_catalog.py, `transform`) -/

/-- One part of a control: id, name (statement or example), prose. -/
structure PartNode where
  partId : LC
  partName : LC
  prose : LC
deriving DecidableEq

/-- A control built from a Subcategory cell. -/
structure Control where
  ctlId : LC
  ctlTitle : LC
  parts : List PartNode
deriving DecidableEq

/-- A category node (nested group). -/
structure Category where
  catId : LC
  catTitle : LC
  controls : List Control
deriving DecidableEq

/-- A function node (top level group). -/
structure Func where
  fid : LC
  ftitle : LC
  cats : List Category
deriving DecidableEq

/-- One spreadsheet row: the Function, Category, Subcategory and
Implementation Examples cells, `none` for a NaN cell. -/
structure Row where
  fcell : Option LC
  ccell : Option LC
  scell : Option LC
  ecell : Option LC
deriving DecidableEq

/-- The function-id computation of `transform` (lines 60 to 67): it
overrides `clean_id` with the abbreviation extracted from the RAW cell
text (no colon split) whenever the raw text has both parentheses. -/
def funcIdOf (t : LC) : LC :=
  if '(' ∈ t ∧ ')' ∈ t then
    pyLower (pyStrip (takeUntil ')' (takeUntil '(' (afterFirst '(' t))))
  else clean_id t

def mkFuncNode (ft : LC) : Func := { fid := funcIdOf ft, ftitle := ft, cats := [] }

def mkCatNode (ct : LC) : Category := { catId := clean_id ct, catTitle := ct, controls := [] }

/-- A control from a Subcategory cell and an optional examples cell:
title is the text before the first colon, the statement part carries the
prose after it, an example part is appended when the examples cell is
present. -/
def mkControlNode (st : LC) (ex : Option LC) : Control :=
  { ctlId := clean_id st
    ctlTitle := pyStrip (takeUntil ':' st)
    parts :=
      { partId := clean_id st ++ "_smt".toList
        partName := "statement".toList
        prose := if ':' ∈ st then pyStrip (afterFirst ':' st) else [] } ::
      (match ex with
        | some e => [{ partId := clean_id st ++ "_eg".toList
                       partName := "example".toList
                       prose := e }]
        | none => []) }

/-- In-place update at an index (no-op when out of range). -/
def updateAt {α : Type} (i : Nat) (f : α → α) : List α → List α
  | [] => []
  | x :: xs =>
    match i with
    | 0 => f x :: xs
    | j + 1 => x :: updateAt j f xs

def pushCatAt (i : Nat) (cat : Category) (gs : List Func) : List Func :=
  updateAt i (fun fn => { fn with cats := fn.cats ++ [cat] }) gs

def pushCtlAt (i j : Nat) (ctl : Control) (gs : List Func) : List Func :=
  updateAt i (fun fn =>
    { fn with cats := updateAt j (fun ct => { ct with controls := ct.controls ++ [ctl] }) fn.cats }) gs

def catsLenAt (i : Nat) (gs : List Func) : Nat :=
  match gs[i]? with
  | some fn => fn.cats.length
  | none => 0

/-- The current-category pointer: either a path into the catalog (the
dict is aliased into it) or a detached orphan dict (a Category cell that
arrived while no Function was open). -/
inductive CatPtr where
  | attached : Nat → Nat → CatPtr
  | orphan : Category → CatPtr
deriving DecidableEq

/-- Builder state: the catalog groups, the carry-forward pointers, and
an instrumentation flag `ok` that records whether any row was silently
dropped (a Category with no open Function, or a Subcategory with no
attached current Category). -/
structure BState where
  groups : List Func
  curFunc : Option Nat
  curCat : Option CatPtr
  ok : Bool
deriving DecidableEq

/-- Step 1 of the row loop: a non-empty Function cell opens a new
top-level group and makes it current. -/
def stepF (s : BState) (r : Row) : BState :=
  match r.fcell with
  | none => s
  | some ft =>
    { s with groups := s.groups ++ [mkFuncNode ft], curFunc := some s.groups.length }

/-- Step 2: a non-empty Category cell builds a new category dict, makes
it current, and appends it under the current function if one is open
(dropped from the catalog otherwise, but still current: the orphan). -/
def stepC (s : BState) (r : Row) : BState :=
  match r.ccell with
  | none => s
  | some ct =>
    match s.curFunc with
    | some i =>
      { s with groups := pushCatAt i (mkCatNode ct) s.groups
               curCat := some (CatPtr.attached i (catsLenAt i s.groups)) }
    | none => { s with curCat := some (CatPtr.orphan (mkCatNode ct)), ok := false }

/-- Step 3: a non-empty Subcategory cell builds a control and appends it
under the current category dict, whether that dict is attached to the
catalog or an orphan; with no current category the row is dropped. -/
def stepS (s : BState) (r : Row) : BState :=
  match r.scell with
  | none => s
  | some st =>
    match s.curCat with
    | some (CatPtr.attached i j) =>
      { s with groups := pushCtlAt i j (mkControlNode st r.ecell) s.groups }
    | some (CatPtr.orphan c) =>
      { s with curCat := some (CatPtr.orphan
          { c with controls := c.controls ++ [mkControlNode st r.ecell] })
               ok := false }
    | none => { s with ok := false }

/-- One row of the `transform` loop: Function, then Category, then
Subcategory, in the fixed source order. -/
def step (s : BState) (r : Row) : BState := stepS (stepC (stepF s r) r) r

def initState : BState := { groups := [], curFunc := none, curCat := none, ok := true }

def buildState (rows : List Row) : BState := rows.foldl step initState

/-- The catalog produced by `transform` on the given rows. -/
def buildCatalog (rows : List Row) : List Func := (buildState rows).groups

/-- Wellformedness of a row sequence: no row was silently dropped. -/
def wfRows (rows : List Row) : Bool := (buildState rows).ok

/-! Counting and content views of a catalog. -/

def numFuncs (gs : List Func) : Nat := gs.length

def numCats (gs : List Func) : Nat := (gs.map (fun fn => fn.cats.length)).sum

def numCtls (gs : List Func) : Nat :=
  (gs.map (fun fn => (fn.cats.map (fun ct => ct.controls.length)).sum)).sum

def catCtlIds (ct : Category) : List LC := ct.controls.map Control.ctlId

def funcCtlIds (fn : Func) : List LC := (fn.cats.map catCtlIds).flatten

def ctlIds (gs : List Func) : List LC := (gs.map funcCtlIds).flatten

def cellCountF (rows : List Row) : Nat := rows.countP (fun r => r.fcell.isSome)

def cellCountC (rows : List Row) : Nat := rows.countP (fun r => r.ccell.isSome)

def cellCountS (rows : List Row) : Nat := rows.countP (fun r => r.scell.isSome)

/-- The canonical ids of the Subcategory cells of the input, in order. -/
def subIds (rows : List Row) : List LC := (rows.filterMap Row.scell).map clean_id

/-! Bookkeeping lemmas for the builder. -/

theorem updateAt_decomp {α : Type} (i : Nat) (f : α → α) (l : List α) (h : i < l.length) :
    ∃ pre a post, l = pre ++ a :: post ∧ pre.length = i ∧ updateAt i f l = pre ++ f a :: post := by
  induction l generalizing i with
  | nil => simp at h
  | cons x xs ih =>
    cases i with
    | zero => exact ⟨[], x, xs, rfl, rfl, rfl⟩
    | succ j =>
      have hj : j < xs.length := by simpa using h
      obtain ⟨pre, a, post, h1, h2, h3⟩ := ih j hj
      refine ⟨x :: pre, a, post, ?_, ?_, ?_⟩
      · rw [List.cons_append, ← h1]
      · simp [h2]
      · show x :: updateAt j f xs = (x :: pre) ++ f a :: post
        rw [h3, List.cons_append]

theorem getElem?_middle {α : Type} (pre : List α) (a : α) (post : List α) :
    (pre ++ a :: post)[pre.length]? = some a := by
  induction pre with
  | nil => simp
  | cons x xs ih => simpa using ih

theorem numCats_append (l1 l2 : List Func) : numCats (l1 ++ l2) = numCats l1 + numCats l2 := by
  simp [numCats]

theorem numCtls_append (l1 l2 : List Func) : numCtls (l1 ++ l2) = numCtls l1 + numCtls l2 := by
  simp [numCtls]

theorem ctlIds_append (l1 l2 : List Func) : ctlIds (l1 ++ l2) = ctlIds l1 ++ ctlIds l2 := by
  simp [ctlIds]

theorem perm_insert_end (X Y : List LC) (x : LC) :
    (X ++ x :: Y).Perm ((X ++ Y) ++ [x]) := by
  have h1 : (X ++ x :: Y).Perm (x :: (X ++ Y)) := List.perm_middle
  have h2 : ((X ++ Y) ++ x :: []).Perm (x :: ((X ++ Y) ++ [])) := List.perm_middle
  refine h1.trans ?_
  have h3 := h2.symm
  simpa using h3

theorem pushCatAt_spec (i : Nat) (cat : Category) (hc : cat.controls = []) (gs : List Func)
    (h : i < gs.length) :
    numFuncs (pushCatAt i cat gs) = numFuncs gs ∧
    numCats (pushCatAt i cat gs) = numCats gs + 1 ∧
    numCtls (pushCatAt i cat gs) = numCtls gs ∧
    ctlIds (pushCatAt i cat gs) = ctlIds gs ∧
    catsLenAt i (pushCatAt i cat gs) = catsLenAt i gs + 1 ∧
    (pushCatAt i cat gs).length = gs.length := by
  obtain ⟨pre, fn, post, h1, h2, h3⟩ :=
    updateAt_decomp i (fun fn => { fn with cats := fn.cats ++ [cat] }) gs h
  have hcatids : catCtlIds cat = [] := by
    unfold catCtlIds
    rw [hc]
    rfl
  subst h1
  rw [show pushCatAt i cat (pre ++ fn :: post) = pre ++ { fn with cats := fn.cats ++ [cat] } :: post
    from h3]
  refine ⟨?_, ?_, ?_, ?_, ?_, ?_⟩
  · simp [numFuncs]
  · rw [numCats_append, numCats_append]
    simp [numCats]
    omega
  · rw [numCtls_append, numCtls_append]
    simp [numCtls, hc]
  · rw [ctlIds_append, ctlIds_append]
    simp only [ctlIds, List.map_cons, List.flatten_cons]
    congr 2
    unfold funcCtlIds
    simp [hcatids]
  · unfold catsLenAt
    rw [← h2, getElem?_middle, getElem?_middle]
    simp
  · simp

theorem pushCtlAt_spec (i j : Nat) (ctl : Control) (gs : List Func)
    (hi : i < gs.length) (hj : j < catsLenAt i gs) :
    numFuncs (pushCtlAt i j ctl gs) = numFuncs gs ∧
    numCats (pushCtlAt i j ctl gs) = numCats gs ∧
    numCtls (pushCtlAt i j ctl gs) = numCtls gs + 1 ∧
    List.Perm (ctlIds (pushCtlAt i j ctl gs)) (ctlIds gs ++ [ctl.ctlId]) ∧
    (∀ k, catsLenAt k (pushCtlAt i j ctl gs) = catsLenAt k gs) ∧
    (pushCtlAt i j ctl gs).length = gs.length := by
  obtain ⟨pre, fn, post, h1, h2, h3⟩ := updateAt_decomp i
    (fun fn => { fn with
      cats := updateAt j (fun ct => { ct with controls := ct.controls ++ [ctl] }) fn.cats }) gs hi
  have hjf : j < fn.cats.length := by
    unfold catsLenAt at hj
    rw [h1, ← h2, getElem?_middle] at hj
    exact hj
  obtain ⟨pre2, ct, post2, g1, g2, g3⟩ := updateAt_decomp j
    (fun ct => { ct with controls := ct.controls ++ [ctl] }) fn.cats hjf
  subst h1
  rw [show pushCtlAt i j ctl (pre ++ fn :: post) = pre ++ { fn with
      cats := updateAt j (fun ct => { ct with controls := ct.controls ++ [ctl] }) fn.cats } :: post
    from h3]
  rw [g3]
  refine ⟨?_, ?_, ?_, ?_, ?_, ?_⟩
  · simp [numFuncs]
  · rw [numCats_append, numCats_append]
    simp only [numCats, List.map_cons, List.sum_cons]
    have : (pre2 ++ { ct with controls := ct.controls ++ [ctl] } :: post2).length
        = fn.cats.length := by
      rw [g1]
      simp
    rw [this]
  · rw [numCtls_append, numCtls_append]
    simp only [numCtls, List.map_cons, List.sum_cons]
    have : ((pre2 ++ { ct with controls := ct.controls ++ [ctl] } :: post2).map
        (fun ct => ct.controls.length)).sum
        = (fn.cats.map (fun ct => ct.controls.length)).sum + 1 := by
      rw [g1]
      simp
      omega
    rw [this]
    omega
  · rw [ctlIds_append, ctlIds_append]
    simp only [ctlIds, List.map_cons, List.flatten_cons]
    have hfn : funcCtlIds { fn with
        cats := pre2 ++ { ct with controls := ct.controls ++ [ctl] } :: post2 }
        = (pre2.map catCtlIds).flatten ++ (catCtlIds ct ++ [ctl.ctlId]) ++
          (post2.map catCtlIds).flatten := by
      unfold funcCtlIds catCtlIds
      simp
    have hfn2 : funcCtlIds fn
        = (pre2.map catCtlIds).flatten ++ catCtlIds ct ++ (post2.map catCtlIds).flatten := by
      unfold funcCtlIds
      rw [g1]
      simp [catCtlIds]
    rw [hfn, hfn2, ← Multiset.coe_eq_coe]
    have hco : ∀ l1 l2 : List LC, ((l1 ++ l2 : List LC) : Multiset LC) = (l1 : Multiset LC) + l2 :=
      fun l1 l2 => rfl
    simp only [hco]
    abel
  · intro k
    unfold catsLenAt
    by_cases hk : k = pre.length
    · subst hk
      rw [getElem?_middle, getElem?_middle]
      show (pre2 ++ _ :: post2).length = fn.cats.length
      rw [g1]
      simp
    · have hside : ∀ fn2 : Func, (pre ++ fn2 :: post)[k]? = if k < pre.length
          then pre[k]? else (fn2 :: post)[k - pre.length]? :=
        fun fn2 => List.getElem?_append
      rw [hside, hside]
      by_cases hlt : k < pre.length
      · rw [if_pos hlt, if_pos hlt]
      · rw [if_neg hlt, if_neg hlt]
        have hne : k - pre.length ≠ 0 := by
          omega
        obtain ⟨m, hm⟩ := Nat.exists_eq_succ_of_ne_zero hne
        rw [hm]
        rfl
  · simp

/-- Validity of the builder state pointers while no row has been
dropped: no orphan current category, and the two carry-forward pointers
index into the catalog. -/
def okInv (s : BState) : Prop :=
  (∀ c, s.curCat ≠ some (CatPtr.orphan c)) ∧
  (∀ i, s.curFunc = some i → i < s.groups.length) ∧
  (∀ i j, s.curCat = some (CatPtr.attached i j) → i < s.groups.length ∧ j < catsLenAt i s.groups)

theorem stepF_ok (s : BState) (r : Row) : (stepF s r).ok = s.ok := by
  obtain ⟨rf, rc, rs, re⟩ := r
  unfold stepF
  cases rf <;> rfl

theorem stepC_ok_mono (s : BState) (r : Row) (h : (stepC s r).ok = true) : s.ok = true := by
  obtain ⟨rf, rc, rs, re⟩ := r
  obtain ⟨gs, cf, cc, ok⟩ := s
  unfold stepC at h
  cases rc with
  | none => exact h
  | some ct =>
    cases cf with
    | none => cases h
    | some i => exact h

theorem stepS_ok_mono (s : BState) (r : Row) (h : (stepS s r).ok = true) : s.ok = true := by
  obtain ⟨rf, rc, rs, re⟩ := r
  obtain ⟨gs, cf, cc, ok⟩ := s
  unfold stepS at h
  cases rs with
  | none => exact h
  | some st =>
    match cc with
    | some (CatPtr.attached i j) => exact h
    | some (CatPtr.orphan c) => cases h
    | none => cases h

theorem step_ok_mono (s : BState) (r : Row) (h : (step s r).ok = true) : s.ok = true := by
  have h2 := stepS_ok_mono _ _ h
  have h3 := stepC_ok_mono _ _ h2
  rw [stepF_ok] at h3
  exact h3

theorem catsLenAt_append_left (i : Nat) (gs l2 : List Func) (h : i < gs.length) :
    catsLenAt i (gs ++ l2) = catsLenAt i gs := by
  unfold catsLenAt
  rw [List.getElem?_append, if_pos h]

theorem stepF_spec (s : BState) (r : Row) (hInv : okInv s) :
    okInv (stepF s r) ∧
    numFuncs (stepF s r).groups = numFuncs s.groups + (if r.fcell.isSome then 1 else 0) ∧
    numCats (stepF s r).groups = numCats s.groups ∧
    numCtls (stepF s r).groups = numCtls s.groups ∧
    ctlIds (stepF s r).groups = ctlIds s.groups := by
  obtain ⟨rf, rc, rs, re⟩ := r
  obtain ⟨gs, cf, cc, okf⟩ := s
  obtain ⟨hOrph, hFun, hCat⟩ := hInv
  dsimp only at hOrph hFun hCat
  unfold stepF
  cases rf with
  | none => exact ⟨⟨hOrph, hFun, hCat⟩, by simp, rfl, rfl, rfl⟩
  | some ft =>
    refine ⟨⟨hOrph, ?_, ?_⟩, by simp [numFuncs, numFuncs], ?_, ?_, ?_⟩
    · intro i hi
      simp only [Option.some.injEq] at hi
      subst hi
      simp [numFuncs]
    · intro i j hij
      obtain ⟨hi, hj⟩ := hCat i j hij
      refine ⟨?_, ?_⟩
      · show i < (gs ++ [mkFuncNode ft]).length
        simp only [List.length_append, List.length_cons, List.length_nil]
        omega
      · show j < catsLenAt i (gs ++ [mkFuncNode ft])
        rw [catsLenAt_append_left i gs [mkFuncNode ft] hi]
        exact hj
    · show numCats (gs ++ [mkFuncNode ft]) = numCats gs
      rw [numCats_append]
      simp [numCats, mkFuncNode]
    · show numCtls (gs ++ [mkFuncNode ft]) = numCtls gs
      rw [numCtls_append]
      simp [numCtls, mkFuncNode]
    · show ctlIds (gs ++ [mkFuncNode ft]) = ctlIds gs
      rw [ctlIds_append]
      simp [ctlIds, funcCtlIds, mkFuncNode]

theorem stepC_spec (s : BState) (r : Row) (hok : (stepC s r).ok = true) (hInv : okInv s) :
    okInv (stepC s r) ∧
    numFuncs (stepC s r).groups = numFuncs s.groups ∧
    numCats (stepC s r).groups = numCats s.groups + (if r.ccell.isSome then 1 else 0) ∧
    numCtls (stepC s r).groups = numCtls s.groups ∧
    ctlIds (stepC s r).groups = ctlIds s.groups := by
  obtain ⟨rf, rc, rs, re⟩ := r
  obtain ⟨gs, cf, cc, okf⟩ := s
  obtain ⟨hOrph, hFun, hCat⟩ := hInv
  dsimp only at hOrph hFun hCat hok
  unfold stepC at hok ⊢
  cases rc with
  | none => exact ⟨⟨hOrph, hFun, hCat⟩, rfl, by simp, rfl, rfl⟩
  | some ct =>
    cases cf with
    | none => cases hok
    | some i =>
      have hi : i < gs.length := hFun i rfl
      obtain ⟨hnF, hnC, hnT, hnI, hLen, hGLen⟩ :=
        pushCatAt_spec i (mkCatNode ct) rfl gs hi
      refine ⟨⟨?_, ?_, ?_⟩, hnF, ?_, hnT, hnI⟩
      · intro c hc
        simp at hc
      · intro i2 hi2
        dsimp only at hi2
        rw [Option.some.injEq] at hi2
        subst hi2
        show i < (pushCatAt i (mkCatNode ct) gs).length
        rw [hGLen]
        exact hi
      · intro i2 j2 hij2
        dsimp only at hij2
        rw [Option.some.injEq, CatPtr.attached.injEq] at hij2
        obtain ⟨h1, h2⟩ := hij2
        subst h1
        subst h2
        refine ⟨?_, ?_⟩
        · show i < (pushCatAt i (mkCatNode ct) gs).length
          rw [hGLen]
          exact hi
        · show catsLenAt i gs < catsLenAt i (pushCatAt i (mkCatNode ct) gs)
          rw [hLen]
          omega
      · show numCats (pushCatAt i (mkCatNode ct) gs) = numCats gs + 1
        exact hnC

theorem stepS_spec (s : BState) (r : Row) (hok : (stepS s r).ok = true) (hInv : okInv s) :
    okInv (stepS s r) ∧
    numFuncs (stepS s r).groups = numFuncs s.groups ∧
    numCats (stepS s r).groups = numCats s.groups ∧
    numCtls (stepS s r).groups = numCtls s.groups + (if r.scell.isSome then 1 else 0) ∧
    (ctlIds (stepS s r).groups).Perm (ctlIds s.groups ++
      (match r.scell with | some st => [clean_id st] | none => [])) := by
  obtain ⟨rf, rc, rs, re⟩ := r
  obtain ⟨gs, cf, cc, okf⟩ := s
  obtain ⟨hOrph, hFun, hCat⟩ := hInv
  dsimp only at hOrph hFun hCat hok
  unfold stepS at hok ⊢
  cases rs with
  | none => exact ⟨⟨hOrph, hFun, hCat⟩, rfl, rfl, by simp, by simp⟩
  | some st =>
    match cc, hOrph, hCat with
    | none, _, _ => cases hok
    | some (CatPtr.orphan c), hOrph, _ => exact absurd rfl (hOrph c)
    | some (CatPtr.attached i j), hOrph, hCat =>
      obtain ⟨hi, hj⟩ := hCat i j rfl
      obtain ⟨hnF, hnC, hnT, hnI, hLens, hGLen⟩ :=
        pushCtlAt_spec i j (mkControlNode st re) gs hi hj
      refine ⟨⟨?_, ?_, ?_⟩, hnF, hnC, ?_, ?_⟩
      · intro c hc
        simp at hc
      · intro i2 hi2
        dsimp only at hi2
        show i2 < (pushCtlAt i j (mkControlNode st re) gs).length
        rw [hGLen]
        exact hFun i2 hi2
      · intro i2 j2 hij2
        dsimp only at hij2
        rw [Option.some.injEq, CatPtr.attached.injEq] at hij2
        obtain ⟨h1, h2⟩ := hij2
        subst h1
        subst h2
        constructor
        · show i < (pushCtlAt i j (mkControlNode st re) gs).length
          rw [hGLen]
          exact hi
        · show j < catsLenAt i (pushCtlAt i j (mkControlNode st re) gs)
          rw [hLens i]
          exact hj
      · show numCtls (pushCtlAt i j (mkControlNode st re) gs) = numCtls gs + 1
        exact hnT
      · show (ctlIds (pushCtlAt i j (mkControlNode st re) gs)).Perm (ctlIds gs ++ [clean_id st])
        have he : clean_id st = (mkControlNode st re).ctlId := rfl
        rw [he]
        exact hnI

theorem step_spec (s : BState) (r : Row) (hok : (step s r).ok = true) (hInv : okInv s) :
    okInv (step s r) ∧
    numFuncs (step s r).groups = numFuncs s.groups + (if r.fcell.isSome then 1 else 0) ∧
    numCats (step s r).groups = numCats s.groups + (if r.ccell.isSome then 1 else 0) ∧
    numCtls (step s r).groups = numCtls s.groups + (if r.scell.isSome then 1 else 0) ∧
    (ctlIds (step s r).groups).Perm (ctlIds s.groups ++
      (match r.scell with | some st => [clean_id st] | none => [])) := by
  have hok2 : (stepC (stepF s r) r).ok = true := stepS_ok_mono _ _ hok
  obtain ⟨hInv1, hF1, hC1, hT1, hI1⟩ := stepF_spec s r hInv
  obtain ⟨hInv2, hF2, hC2, hT2, hI2⟩ := stepC_spec (stepF s r) r hok2 hInv1
  obtain ⟨hInv3, hF3, hC3, hT3, hI3⟩ := stepS_spec (stepC (stepF s r) r) r hok hInv2
  refine ⟨hInv3, ?_, ?_, ?_, ?_⟩
  · show numFuncs (stepS (stepC (stepF s r) r) r).groups = _
    omega
  · show numCats (stepS (stepC (stepF s r) r) r).groups = _
    omega
  · show numCtls (stepS (stepC (stepF s r) r) r).groups = _
    omega
  · show (ctlIds (stepS (stepC (stepF s r) r) r).groups).Perm _
    rw [hI2, hI1] at hI3
    exact hI3

theorem foldl_ok_mono (rows : List Row) (s : BState)
    (h : (rows.foldl step s).ok = true) : s.ok = true := by
  induction rows generalizing s with
  | nil => exact h
  | cons r rest ih => exact step_ok_mono s r (ih (step s r) h)

theorem buildAux_spec (rows : List Row) (s : BState) (hInv : okInv s)
    (hok : (rows.foldl step s).ok = true) :
    okInv (rows.foldl step s) ∧
    numFuncs (rows.foldl step s).groups = numFuncs s.groups + cellCountF rows ∧
    numCats (rows.foldl step s).groups = numCats s.groups + cellCountC rows ∧
    numCtls (rows.foldl step s).groups = numCtls s.groups + cellCountS rows ∧
    (ctlIds (rows.foldl step s).groups).Perm (ctlIds s.groups ++ subIds rows) := by
  induction rows generalizing s with
  | nil =>
    refine ⟨hInv, ?_, ?_, ?_, ?_⟩ <;> simp [cellCountF, cellCountC, cellCountS, subIds]
  | cons r rest ih =>
    simp only [List.foldl_cons] at hok ⊢
    have hok1 : (step s r).ok = true := foldl_ok_mono rest (step s r) hok
    obtain ⟨hInv1, hF1, hC1, hT1, hI1⟩ := step_spec s r hok1 hInv
    obtain ⟨hInv2, hF2, hC2, hT2, hI2⟩ := ih (step s r) hInv1 hok
    refine ⟨hInv2, ?_, ?_, ?_, ?_⟩
    · rw [hF2, hF1]
      simp [cellCountF, List.countP_cons]
      omega
    · rw [hC2, hC1]
      simp [cellCountC, List.countP_cons]
      omega
    · rw [hT2, hT1]
      simp [cellCountS, List.countP_cons]
      omega
    · refine hI2.trans ?_
      have hsub : subIds (r :: rest) =
          (match r.scell with | some st => [clean_id st] | none => []) ++ subIds rest := by
        unfold subIds
        rcases hsc : r.scell with _ | st <;> rw [List.filterMap_cons, hsc] <;> simp
      rw [hsub]
      have := hI1.append_right (subIds rest)
      refine this.trans ?_
      rw [List.append_assoc]

/-- The categories of a catalog, as a flat list. -/
def catsOf (gs : List Func) : List Category := (gs.map Func.cats).flatten

/-- A row carrying only a Category cell (used as the malformed input of
the C6 counterexample and of the C8 and C10 witnesses). -/
def orphanCatRow : Row :=
  { fcell := none, ccell := some "Org Context (GV.OC)".toList, scell := none, ecell := none }

/-- The three rows of the end-to-end example in the spec. -/
def csfExampleRows : List Row :=
  [{ fcell := some "GOVERN (GV): intro".toList, ccell := none, scell := none, ecell := none },
   { fcell := none, ccell := some "Organizational Context (GV.OC): ctx".toList,
     scell := none, ecell := none },
   { fcell := none, ccell := none,
     scell := some "GV.OC-01: Org mission is understood.".toList, ecell := none }]

/-- Claim C6, counterexample: the three tree invariants do NOT hold for
every input row sequence.  A single row carrying only a Category cell
(no Function ever opened) is dropped: the built catalog is empty, so its
node count (0) differs from the count of non-empty cells (1). -/
theorem C6_invariants_fail :
    buildCatalog [orphanCatRow] = [] ∧
    numFuncs (buildCatalog [orphanCatRow]) + numCats (buildCatalog [orphanCatRow]) +
      numCtls (buildCatalog [orphanCatRow]) = 0 ∧
    cellCountF [orphanCatRow] + cellCountC [orphanCatRow] + cellCountS [orphanCatRow] = 1 := by
  refine ⟨?_, ?_, ?_⟩ <;> decide

/-- Claim C6, amended: for every input row sequence in which no row is
silently dropped (each Category cell arrives with a Function open and
each Subcategory cell with an attached current Category, `wfRows`) and
whose Subcategory cells have pairwise distinct canonical ids, the built
catalog satisfies the three tree invariants: the Control ids are unique
across the whole catalog, every Category lies under some Function node,
and the node counts per kind (hence in total) equal the counts of
non-empty Function, Category and Subcategory cells of the input. -/
theorem C6_catalog_invariants (rows : List Row) (hwf : wfRows rows = true)
    (hnd : (subIds rows).Nodup) :
    (ctlIds (buildCatalog rows)).Nodup ∧
    (∀ ct ∈ catsOf (buildCatalog rows), ∃ fn ∈ buildCatalog rows, ct ∈ fn.cats) ∧
    numFuncs (buildCatalog rows) = cellCountF rows ∧
    numCats (buildCatalog rows) = cellCountC rows ∧
    numCtls (buildCatalog rows) = cellCountS rows ∧
    numFuncs (buildCatalog rows) + numCats (buildCatalog rows) + numCtls (buildCatalog rows) =
      cellCountF rows + cellCountC rows + cellCountS rows := by
  have hInv0 : okInv initState :=
    ⟨fun c h => Option.noConfusion h, fun i h => Option.noConfusion h,
     fun i j h => Option.noConfusion h⟩
  obtain ⟨hInvF, hF, hC, hT, hI⟩ := buildAux_spec rows initState hInv0 hwf
  have hF2 : numFuncs (buildCatalog rows) = cellCountF rows := by
    unfold buildCatalog buildState
    rw [hF]
    show 0 + _ = _
    omega
  have hC2 : numCats (buildCatalog rows) = cellCountC rows := by
    unfold buildCatalog buildState
    rw [hC]
    show 0 + _ = _
    omega
  have hT2 : numCtls (buildCatalog rows) = cellCountS rows := by
    unfold buildCatalog buildState
    rw [hT]
    show 0 + _ = _
    omega
  have hids : (ctlIds (buildCatalog rows)).Perm (subIds rows) := by
    unfold buildCatalog buildState
    have h0 : ctlIds initState.groups ++ subIds rows = subIds rows := rfl
    rw [← h0]
    exact hI
  refine ⟨?_, ?_, hF2, hC2, hT2, ?_⟩
  · exact hids.symm.nodup hnd
  · intro ct hct
    unfold catsOf at hct
    rw [List.mem_flatten] at hct
    obtain ⟨l, hl, hctl⟩ := hct
    rw [List.mem_map] at hl
    obtain ⟨fn, hfn, rfl⟩ := hl
    exact ⟨fn, hfn, hctl⟩
  · omega

/-- Witness for C6_catalog_invariants at the end-to-end example rows of
the spec. -/
theorem C6_catalog_invariants_witness :
    (ctlIds (buildCatalog csfExampleRows)).Nodup ∧
    (∀ ct ∈ catsOf (buildCatalog csfExampleRows),
      ∃ fn ∈ buildCatalog csfExampleRows, ct ∈ fn.cats) ∧
    numFuncs (buildCatalog csfExampleRows) = cellCountF csfExampleRows ∧
    numCats (buildCatalog csfExampleRows) = cellCountC csfExampleRows ∧
    numCtls (buildCatalog csfExampleRows) = cellCountS csfExampleRows := by
  obtain ⟨h1, h2, h3, h4, h5, h6⟩ :=
    C6_catalog_invariants csfExampleRows (by decide) (by decide)
  exact ⟨h1, h2, h3, h4, h5⟩

/-- Claim C8: a Category or Subcategory row arriving before any parent
node of the required level has been opened is dropped silently (the
embedding is total, so no exception is possible): the catalog groups are
unchanged by the row, and the fold simply continues with the remaining
rows. -/
theorem C8_orphan_row_dropped (s : BState) (r : Row) (rest : List Row)
    (hf : r.fcell = none)
    (hc : r.ccell.isSome = true → s.curFunc = none)
    (hs : r.scell.isSome = true → s.curCat = none) :
    (step s r).groups = s.groups ∧
    (r :: rest).foldl step s = rest.foldl step (step s r) := by
  refine ⟨?_, rfl⟩
  obtain ⟨rf, rc, rs, re⟩ := r
  obtain ⟨gs, cf, cc, okf⟩ := s
  dsimp only at hf hc hs
  subst hf
  unfold step stepF stepC stepS
  cases rc with
  | none =>
    cases rs with
    | none => rfl
    | some st =>
      have hcc : cc = none := hs rfl
      subst hcc
      rfl
  | some ct =>
    have hcf : cf = none := hc rfl
    subst hcf
    cases rs with
    | none => rfl
    | some st => rfl

/-- Witness for C8_orphan_row_dropped at a concrete state and rows. -/
theorem C8_orphan_row_dropped_witness :
    (step initState orphanCatRow).groups = initState.groups ∧
    ((orphanCatRow :: csfExampleRows).foldl step initState) =
      (csfExampleRows.foldl step (step initState orphanCatRow)) :=
  C8_orphan_row_dropped initState orphanCatRow csfExampleRows
    (by decide) (fun _ => by decide) (fun _ => by decide)

theorem updateAt_append_last {α : Type} (l : List α) (a : α) (f : α → α) :
    updateAt l.length f (l ++ [a]) = l ++ [f a] := by
  induction l with
  | nil => rfl
  | cons x xs ih =>
    show x :: updateAt xs.length f (xs ++ [a]) = x :: (xs ++ [f a])
    rw [ih]

theorem catsLenAt_last (l : List Func) (fn : Func) :
    catsLenAt l.length (l ++ [fn]) = fn.cats.length := by
  unfold catsLenAt
  have h : (l ++ fn :: [])[l.length]? = some fn := getElem?_middle l fn []
  rw [show l ++ [fn] = l ++ fn :: [] from rfl, h]

/-- Claim C10: a Category cell arriving while no Function is open still
becomes the current category, as an orphan absent from the catalog;
every subsequent Control row is appended under that orphan (and is
likewise absent from the catalog), until a Function-and-Category row
arrives, which re-attaches the current-category pointer into the
catalog. -/
theorem C10_orphan_category_absorbs (s : BState) (ct : LC) (hcf : s.curFunc = none) :
    (step s (Row.mk none (some ct) none none)).groups = s.groups ∧
    (step s (Row.mk none (some ct) none none)).curFunc = none ∧
    (step s (Row.mk none (some ct) none none)).curCat = some (CatPtr.orphan (mkCatNode ct)) ∧
    (∀ st ex,
      (step (step s (Row.mk none (some ct) none none)) (Row.mk none none (some st) ex)).groups
        = s.groups ∧
      (step (step s (Row.mk none (some ct) none none)) (Row.mk none none (some st) ex)).curCat
        = some (CatPtr.orphan { mkCatNode ct with controls := [mkControlNode st ex] })) ∧
    (∀ ft ct2,
      (step (step s (Row.mk none (some ct) none none))
          (Row.mk (some ft) (some ct2) none none)).groups
        = s.groups ++ [{ mkFuncNode ft with cats := [mkCatNode ct2] }] ∧
      (step (step s (Row.mk none (some ct) none none))
          (Row.mk (some ft) (some ct2) none none)).curCat
        = some (CatPtr.attached s.groups.length 0)) := by
  obtain ⟨gs, cf, cc, okf⟩ := s
  dsimp only at hcf
  subst hcf
  refine ⟨rfl, rfl, rfl, ?_, ?_⟩
  · intro st ex
    exact ⟨rfl, rfl⟩
  · intro ft ct2
    constructor
    · show pushCatAt gs.length (mkCatNode ct2) (gs ++ [mkFuncNode ft]) = _
      unfold pushCatAt
      rw [updateAt_append_last]
      rfl
    · show some (CatPtr.attached gs.length (catsLenAt gs.length (gs ++ [mkFuncNode ft]))) = _
      rw [catsLenAt_last]
      rfl

/-- Witness for C10_orphan_category_absorbs at a concrete state. -/
theorem C10_orphan_category_witness :
    (step initState orphanCatRow).groups = initState.groups ∧
    (step initState orphanCatRow).curCat =
      some (CatPtr.orphan (mkCatNode "Org Context (GV.OC)".toList)) := by
  have h := C10_orphan_category_absorbs initState "Org Context (GV.OC)".toList (by decide)
  exact ⟨h.1, h.2.2.1⟩

/-! ## Crosswalk partitioning and validation (cyber_mapping.py) -/

/-- Leaf (non-category-level) control test of the unmapped-controls
filter: a hyphen is present and the last hyphen-separated segment is all
digits. -/
def isLeafControl (c : LC) : Bool :=
  decide ('-' ∈ c) && pyIsDigit ((splitOn '-' c).getLastD [])

/-- The set difference `all_csf_controls - mapped_csf_controls`. -/
def unmapped_controls (allIds mappedIds : List LC) : List LC :=
  allIds.filter (fun c => !mappedIds.contains c)

/-- `filtered_unmapped`: the unmapped controls that are leaf controls. -/
def filtered_unmapped (allIds mappedIds : List LC) : List LC :=
  (unmapped_controls allIds mappedIds).filter isLeafControl

/-- Claim C7: every leaf control identifier of the source catalog lands
in exactly one of the mapped set and the source-gap set. -/
theorem C7_mapped_gap_partition (allIds mappedIds : List LC) (c : LC)
    (hmem : c ∈ allIds) (hleaf : isLeafControl c = true) :
    (c ∈ mappedIds ∧ c ∉ filtered_unmapped allIds mappedIds) ∨
    (c ∉ mappedIds ∧ c ∈ filtered_unmapped allIds mappedIds) := by
  by_cases hc : c ∈ mappedIds
  · refine Or.inl ⟨hc, ?_⟩
    intro hfu
    unfold filtered_unmapped unmapped_controls at hfu
    rw [List.mem_filter] at hfu
    rw [List.mem_filter] at hfu
    have h2 := hfu.1.2
    simp at h2
    exact h2 hc
  · refine Or.inr ⟨hc, ?_⟩
    unfold filtered_unmapped unmapped_controls
    rw [List.mem_filter, List.mem_filter]
    refine ⟨⟨hmem, ?_⟩, hleaf⟩
    simpa using hc

/-- Witness for C7_mapped_gap_partition at concrete sets. -/
theorem C7_mapped_gap_partition_witness :
    ("gv.oc-01".toList ∈ ["gv.oc-01".toList] ∧
      "gv.oc-01".toList ∉ filtered_unmapped ["gv.oc-01".toList, "gv.oc".toList] ["gv.oc-01".toList]) ∨
    ("gv.oc-01".toList ∉ ["gv.oc-01".toList] ∧
      "gv.oc-01".toList ∈ filtered_unmapped ["gv.oc-01".toList, "gv.oc".toList] ["gv.oc-01".toList]) :=
  C7_mapped_gap_partition ["gv.oc-01".toList, "gv.oc".toList] ["gv.oc-01".toList]
    "gv.oc-01".toList (by decide) (by decide)

/-- The targets grouped under one source (the rows of `df_mapped` with
that source id, in order). -/
def targetsOf (rows : List (LC × LC)) (s : LC) : List LC :=
  (rows.filter (fun p => p.1 == s)).map Prod.snd

/-- First-occurrence deduplication, as pandas `unique`. -/
def uniqueFirstAux (seen : List LC) : List LC → List LC
  | [] => []
  | x :: xs =>
    if x ∈ seen then uniqueFirstAux seen xs else x :: uniqueFirstAux (x :: seen) xs

def pandasUnique (l : List LC) : List LC := uniqueFirstAux [] l

/-- The space-joined target list of one source in `grouped`, as a list
of entries: unique targets, empty ones skipped, each stripped of
trailing commas. -/
def mappedTargets (rows : List (LC × LC)) (s : LC) : List LC :=
  ((pandasUnique (targetsOf rows s)).filter (fun t => !t.isEmpty)).map (rstripChar ',')

/-- The `invalid_controls` warning list: unique non-empty target ids
absent from the target catalog id set. -/
def invalid_controls (rows : List (LC × LC)) (valid : List LC) : List LC :=
  (pandasUnique (rows.map Prod.snd)).filter (fun t => !t.isEmpty && !valid.contains t)

theorem mem_uniqueFirstAux (x : LC) (l seen : List LC) (hx : x ∈ l) (hs : x ∉ seen) :
    x ∈ uniqueFirstAux seen l := by
  induction l generalizing seen with
  | nil => cases hx
  | cons y ys ih =>
    unfold uniqueFirstAux
    by_cases hy : y ∈ seen
    · rw [if_pos hy]
      rcases List.mem_cons.mp hx with rfl | hx2
      · exact absurd hy hs
      · exact ih seen hx2 hs
    · rw [if_neg hy]
      rcases List.mem_cons.mp hx with rfl | hx2
      · exact List.mem_cons_self x _
      · by_cases hxy : x = y
        · subst hxy
          exact List.mem_cons_self x _
        · refine List.mem_cons_of_mem y (ih (y :: seen) hx2 ?_)
          intro hxs
          rcases List.mem_cons.mp hxs with he | hxs2
          · exact hxy he
          · exact hs hxs2

theorem mem_pandasUnique (x : LC) (l : List LC) (hx : x ∈ l) : x ∈ pandasUnique l :=
  mem_uniqueFirstAux x l [] hx (List.not_mem_nil x)

/-- Claim C9, counterexample: a canonicalized non-empty target id is NOT
always kept unaltered in its source record.  The raw target `AC-2(1,)`
canonicalizes to `ac-2.1,`, but the grouped record strips the trailing
comma: only `ac-2.1` appears, so the canonicalized identifier itself is
absent (altered). -/
theorem C9_target_altered :
    transform_control_id "AC-2(1,)".toList = some "ac-2.1,".toList ∧
    "ac-2.1,".toList ≠ ([] : LC) ∧
    "ac-2.1,".toList ∉
      mappedTargets [("gv.oc-01".toList, "ac-2.1,".toList)] "gv.oc-01".toList ∧
    mappedTargets [("gv.oc-01".toList, "ac-2.1,".toList)] "gv.oc-01".toList =
      ["ac-2.1".toList] := by
  refine ⟨?_, ?_, ?_, ?_⟩ <;> decide

/-- Claim C9, amended: every canonicalized non-empty target identifier
of a row appears, stripped of trailing commas, in its source record (it
is never dropped, though a trailing comma is removed), and when it is
absent from the known target catalog ids it is collected, unaltered,
into the invalid_controls warning list. -/
theorem C9_targets_kept (rows : List (LC × LC)) (valid : List LC) (s t : LC)
    (hmem : (s, t) ∈ rows) (hne : t ≠ []) :
    rstripChar ',' t ∈ mappedTargets rows s ∧
    (valid.contains t = false → t ∈ invalid_controls rows valid) := by
  have hnet : t.isEmpty = false := by
    cases t with
    | nil => exact absurd rfl hne
    | cons c cs => rfl
  constructor
  · unfold mappedTargets
    refine List.mem_map_of_mem (rstripChar ',') ?_
    rw [List.mem_filter]
    refine ⟨?_, by rw [hnet]; rfl⟩
    refine mem_pandasUnique t _ ?_
    unfold targetsOf
    have hf : (s, t) ∈ rows.filter (fun p => p.1 == s) := by
      rw [List.mem_filter]
      exact ⟨hmem, by simp⟩
    exact List.mem_map_of_mem Prod.snd hf
  · intro hval
    unfold invalid_controls
    rw [List.mem_filter]
    refine ⟨?_, ?_⟩
    · refine mem_pandasUnique t _ ?_
      exact List.mem_map_of_mem Prod.snd hmem
    · rw [hnet, hval]
      rfl

/-- Witness for C9_targets_kept at a concrete row set. -/
theorem C9_targets_kept_witness :
    rstripChar ',' "ac-2.1".toList ∈
      mappedTargets [("gv.oc-01".toList, "ac-2.1".toList)] "gv.oc-01".toList ∧
    (["ac-1".toList].contains "ac-2.1".toList = false →
      "ac-2.1".toList ∈ invalid_controls [("gv.oc-01".toList, "ac-2.1".toList)] ["ac-1".toList]) :=
  C9_targets_kept [("gv.oc-01".toList, "ac-2.1".toList)] ["ac-1".toList]
    "gv.oc-01".toList "ac-2.1".toList (by decide) (by decide)

end ExMap
